import Mathlib

/-!
Verification of the aMusing progressive-visibility engine
(`src/amusing/score/mscx.py` and `src/amusing/score/animate.py`).

Conventions of the shallow embedding:
* Python floats are idealized as rationals (`ℚ`); every constant the code
  uses (`1024`, `0.01`, `1.5`, fractions of small integers) is exactly
  representable, so the idealization only ignores float rounding.
* Durations are measured in the program's internal unit, in which a whole
  note is `1024` (`Note(1).value = 1024/1`).
* Code that can raise a Python exception is modelled with `Option`
  (`none` = the call raises) or `Except` where the error identity matters.
* XML `Element` objects become the inductive rose tree `MElem`; the
  `visible` marker-child encoding of visibility is kept as in the source.
-/

namespace AMusing

/-! ### Python numeric/string primitives used by the source -/

/-- Value of a decimal digit character, `none` for non-digits. -/
def pyDigit? (c : Char) : Option ℕ :=
  if '0' ≤ c ∧ c ≤ '9' then some (c.toNat - '0'.toNat) else none

/-- Accumulate decimal digits; `none` as soon as a non-digit appears. -/
def pyDigitsAux? : List Char → ℕ → Option ℕ
  | [], acc => some acc
  | c :: rest, acc =>
    match pyDigit? c with
    | none => none
    | some d => pyDigitsAux? rest (10 * acc + d)

/-- Parse a non-empty all-digit character list. -/
def pyDigits? : List Char → Option ℕ
  | [] => none
  | l => pyDigitsAux? l 0

/-- Python `int(s)` restricted to an optional sign followed by digits
(the source never feeds it whitespace or underscores); `none` models
`ValueError`. -/
def pyInt? (s : String) : Option ℤ :=
  match s.toList with
  | '-' :: rest => (pyDigits? rest).map (fun n => -(n : ℤ))
  | '+' :: rest => (pyDigits? rest).map (fun n => (n : ℤ))
  | l => (pyDigits? l).map (fun n => (n : ℤ))

/-- Python `eval` as applied by `MElement.duration_offset` to MuseScore
`fractions` strings: an integer or a quotient of two integers, with
Python's true division; `none` models a parse error or `ZeroDivisionError`. -/
def pyFracEval? (s : String) : Option ℚ :=
  match s.splitOn "/" with
  | [a] => (pyInt? a).map (fun n => (n : ℚ))
  | [a, b] =>
    match pyInt? a, pyInt? b with
    | some n, some d => if d = 0 then none else some ((n : ℚ) / (d : ℚ))
    | _, _ => none
  | _ => none

/-- Python `%` on floats (sign of the divisor), idealized on `ℚ`. -/
def pyMod (x y : ℚ) : ℚ := x - y * ⌊x / y⌋

/-- Python 3 `round` (banker's rounding, half to even), idealized on `ℚ`. -/
def pyRound (q : ℚ) : ℤ :=
  let f := ⌊q⌋
  let r := q - f
  if r < 1/2 then f
  else if 1/2 < r then f + 1
  else if 2 ∣ f then f else f + 1

/-- `numpy.linspace(start, stop, num, endpoint=False)`:
`num` samples `start + i*(stop-start)/num`. -/
def linspace (start stop : ℚ) (num : ℕ) : List ℚ :=
  (List.range num).map
    (fun i : ℕ => start + (i : ℚ) * ((stop - start) / (num : ℚ)))

/-! ### `Note` (mscx.py, class Note) — Duration Values -/

/-- A Duration Value: the wrapped scalar `value` is the Python `_value`
float, in internal units (whole note = 1024). -/
structure Note where
  value : ℚ
  deriving DecidableEq, Repr

/-- `Note.__init__`: `self._value = 1024 / note_type`; `none` models the
`ZeroDivisionError` on `note_type == 0`. -/
def Note.ofType? (note_type : ℚ) : Option Note :=
  if note_type = 0 then none else some ⟨1024 / note_type⟩

/-- `Note.ntype` property: `1024 / self._value`. -/
def Note.ntype (x : Note) : ℚ := 1024 / x.value

/-- `Note.from_text`: the five named tokens, else `cls(int(text[:-2]))`.
`none` models the `ValueError` of `int` or the `ZeroDivisionError` of the
constructor. -/
def Note.from_text (text : String) : Option Note :=
  if text = "breve" then Note.ofType? (1/2)
  else if text = "whole" then Note.ofType? 1
  else if text = "half" then Note.ofType? 2
  else if text = "quarter" then Note.ofType? 4
  else if text = "eighth" then Note.ofType? 8
  else
    match pyInt? (text.dropRight 2) with
    | none => none
    | some n => Note.ofType? (n : ℚ)

/-- `Note.half`: `self._value /= 2`. -/
def Note.half (x : Note) : Note := ⟨x.value / 2⟩

/-- `Note.dot`: `self._value *= 1.5`. -/
def Note.dot (x : Note) : Note := ⟨x.value * (3/2)⟩

/-- `Note.n_dot`: `self._value *= sum(1/2**i for i in range(dots + 1))`. -/
def Note.n_dot (x : Note) (dots : ℕ) : Note :=
  ⟨x.value * ((List.range (dots + 1)).map (fun i => 1 / (2 : ℚ) ^ i)).sum⟩

/-- `Note.triplet`: `self._value *= 2/3`. -/
def Note.triplet (x : Note) : Note := ⟨x.value * (2/3)⟩

/-- `Note.n_tuplet`: `self._value *= normal_notes/actual_notes`; `none`
models the `ZeroDivisionError` on `actual_notes == 0`. -/
def Note.n_tuplet? (x : Note) (actual_notes normal_notes : ℤ) : Option Note :=
  if actual_notes = 0 then none
  else some ⟨x.value * ((normal_notes : ℚ) / (actual_notes : ℚ))⟩

/-! #### Claim-side vocabulary for C5 (from the spec's words) -/

/-- Modelled from the spec: a "recognized" duration token — one of the
five words, or of the form `<int>th` (digits with an optional sign,
followed by the literal suffix "th"). -/
def specRecognizedToken (s : String) : Prop :=
  s ∈ ["breve", "whole", "half", "quarter", "eighth"] ∨
    (∃ n : ℤ, pyInt? (s.dropRight 2) = some n ∧
      s.toList.drop (s.toList.length - 2) = ['t', 'h'])

instance (s : String) : Decidable (specRecognizedToken s) := by
  unfold specRecognizedToken
  refine @instDecidableOr _ _ ?_ ?_
  · infer_instance
  · refine decidable_of_iff
      ((pyInt? (s.dropRight 2)).isSome ∧
        s.toList.drop (s.toList.length - 2) = ['t', 'h']) ?_
    constructor
    · rintro ⟨h1, h2⟩
      rcases Option.isSome_iff_exists.mp h1 with ⟨n, hn⟩
      exact ⟨n, hn, h2⟩
    · rintro ⟨n, hn, h2⟩
      exact ⟨Option.isSome_iff_exists.mpr ⟨n, hn⟩, h2⟩

/-! ### Claims C4, C5, C7 -/

/-- C4: Duration Values compare by their scalar ratio: two `Note`s are
equal exactly when their underlying ratios are, and the named-token and
numeric-denominator construction paths yield identical Duration Values
(shown for every named token and for the numeric form `16th`), so any
comparison of `value`s treats them as equal. -/
theorem c4_duration_values_compare_by_ratio :
    (∀ a b : Note, a = b ↔ a.value = b.value) ∧
    Note.from_text "breve" = Note.ofType? (1/2) ∧
    Note.from_text "whole" = Note.ofType? 1 ∧
    Note.from_text "half" = Note.ofType? 2 ∧
    Note.from_text "quarter" = Note.ofType? 4 ∧
    Note.from_text "eighth" = Note.ofType? 8 ∧
    Note.from_text "16th" = Note.ofType? 16 := by
  refine ⟨fun a b => ?_, ?_, ?_, ?_, ?_, ?_, ?_⟩
  · cases a; cases b; simp
  · simp [Note.from_text]
  · simp [Note.from_text]
  · simp [Note.from_text]
  · simp [Note.from_text]
  · simp [Note.from_text]
  · have h : pyInt? ("16th".dropRight 2) = some 16 := by decide
    simp only [Note.from_text]
    rw [if_neg (by decide), if_neg (by decide), if_neg (by decide),
      if_neg (by decide), if_neg (by decide), h]
    norm_num

/-- C5 counterexample: `"16nd"` is neither a recognized word nor of the
form `<int>th`, yet `Note.from_text` succeeds on it (the code only strips
the last two characters and parses the rest as an integer, never checking
the suffix), refuting "fails exactly when the name is neither a recognized
word nor of the form `<int>th`". -/
theorem c5_counterexample :
    Note.from_text "16nd" = some ⟨64⟩ ∧ ¬ specRecognizedToken "16nd" := by
  constructor
  · have h : pyInt? ("16nd".dropRight 2) = some 16 := by decide
    simp only [Note.from_text]
    rw [if_neg (by decide), if_neg (by decide), if_neg (by decide),
      if_neg (by decide), if_neg (by decide), h]
    norm_num [Note.ofType?]
  · decide

/-- C5 amended: construction from a name fails exactly when the name is
neither one of the five recognized words nor a string whose last two
characters have been dropped to leave an optionally signed integer
literal that is nonzero (any two-character suffix is accepted; the value
`0` fails with a division error rather than a token error). -/
theorem c5_from_text_failure_condition (s : String) :
    (Note.from_text s).isSome ↔
      (s ∈ ["breve", "whole", "half", "quarter", "eighth"] ∨
        ∃ n : ℤ, pyInt? (s.dropRight 2) = some n ∧ n ≠ 0) := by
  unfold Note.from_text
  split_ifs with h1 h2 h3 h4 h5
  · simp [h1, Note.ofType?]
  · simp [h2, Note.ofType?]
  · simp [h3, Note.ofType?]
  · simp [h4, Note.ofType?]
  · simp [h5, Note.ofType?]
  · cases hp : pyInt? (s.dropRight 2) with
    | none => simp [hp, h1, h2, h3, h4, h5]
    | some n =>
      simp only [hp, Note.ofType?]
      constructor
      · intro hs
        refine Or.inr ⟨n, rfl, ?_⟩
        intro hn0
        rw [hn0] at hs
        simp at hs
      · intro _
        split
        · next h0 =>
          exfalso
          rcases (by assumption : s ∈ ["breve", "whole", "half", "quarter", "eighth"] ∨
              ∃ m : ℤ, some n = some m ∧ m ≠ 0) with hw | ⟨m, hm, hm0⟩
          · simp at hw
            rcases hw with h | h | h | h | h <;> simp_all
          · cases hm
            exact hm0 (by exact_mod_cast h0)
        · simp

/-- The Python generator sum in `n_dot` equals the closed `Finset` sum. -/
theorem dyadic_list_sum_eq_finset_sum (k : ℕ) :
    ((List.range k).map (fun i => 1 / (2 : ℚ) ^ i)).sum =
      ∑ i ∈ Finset.range k, ((2 : ℚ)⁻¹) ^ i := by
  induction k with
  | zero => simp
  | succ m ih =>
    rw [List.range_succ, List.map_append, List.sum_append,
      Finset.sum_range_succ, ih]
    simp [one_div, inv_pow]

/-- C7: `n_dot n` multiplies the value by `Σ_{i=0}^{n} 2^{-i}`, and
tuplet scaling by `(actual, normal)` multiplies the value by
`normal/actual` (for nonzero `actual`). -/
theorem c7_dot_and_tuplet_scaling (v : Note) (n : ℕ) (actual normal : ℤ)
    (ha : actual ≠ 0) :
    (v.n_dot n).value = v.value * ∑ i ∈ Finset.range (n + 1), ((2 : ℚ)⁻¹) ^ i ∧
    Note.n_tuplet? v actual normal =
      some ⟨v.value * ((normal : ℚ) / (actual : ℚ))⟩ := by
  constructor
  · unfold Note.n_dot
    rw [dyadic_list_sum_eq_finset_sum]
  · unfold Note.n_tuplet?
    rw [if_neg ha]

/-- C7 witness: the dotted and tuplet laws applied at `v = ⟨512⟩`, `n = 2`,
`(actual, normal) = (3, 2)`. -/
theorem c7_witness :
    (Note.n_dot ⟨512⟩ 2).value =
      512 * ∑ i ∈ Finset.range 3, ((2 : ℚ)⁻¹) ^ i ∧
    Note.n_tuplet? ⟨512⟩ 3 2 = some ⟨512 * ((2 : ℚ) / 3)⟩ :=
  c7_dot_and_tuplet_scaling ⟨512⟩ 2 3 2 (by decide)

/-! ### `MElement` (mscx.py) — notation tree nodes

`xml.etree` `Element`s become a rose tree. Python object identity is not
needed by any modelled operation: `remove(e)` with `e` the first
`visible`-tagged child is exactly "remove the first `visible`-tagged
child", since the default `Element` equality is identity. -/

def CHORD_SUB : List String := ["Accidental", "Stem", "NoteDot", "Note", "Hook"]

def GRACENOTE : List String :=
  ["grace4", "acciaccatura", "appoggiatura", "grace8after", "grace16",
   "grace16after", "grace32", "grace32after"]

def UNPRINTABLE : List String :=
  ["visible", "irregular", "stretch", "startRepeat", "endRepeat",
   "MeasureNumber", "LayoutBreak", "noOffset", "vspacerUp", "vspacerDown",
   "vspacerFixed"]

inductive MElem where
  | node (tag : String) (attrib : List (String × String)) (text : Option String)
      (children : List MElem) (visibility_locked : Bool)

instance : Inhabited MElem := ⟨.node "" [] none [] false⟩

def MElem.tag : MElem → String
  | .node t _ _ _ _ => t

def MElem.attrib : MElem → List (String × String)
  | .node _ a _ _ _ => a

def MElem.text : MElem → Option String
  | .node _ _ tx _ _ => tx

def MElem.children : MElem → List MElem
  | .node _ _ _ cs _ => cs

def MElem.visibility_locked : MElem → Bool
  | .node _ _ _ _ lk => lk

/-- `MElement.__init__`: a fresh element; `visibility_locked` starts true
exactly for tag `Measure`. -/
def MElem.ofTag (tag : String) : MElem :=
  .node tag [] none [] (tag == "Measure")

/-- Replace the children list, keeping everything else. -/
def MElem.withChildren : MElem → List MElem → MElem
  | .node t a tx _ lk, cs => .node t a tx cs lk

/-- `Element.find`: first direct child with the given tag. -/
def MElem.find (x : MElem) (t : String) : Option MElem :=
  x.children.find? (fun c => c.tag == t)

/-- `MElement.contains`. -/
def MElem.contains (x : MElem) (t : String) : Bool :=
  (x.find t).isSome

/-- `MElement.is_protected`. -/
def MElem.is_protected (x : MElem) : Bool := x.visibility_locked

/-- `MElement.lock_visibility`. -/
def MElem.lock_visibility : MElem → MElem
  | .node t a tx cs _ => .node t a tx cs true

/-- `MElement._is_visible`: the `visible` marker child (if any) and the
decoded flag (`text != '0'`). -/
def MElem._is_visible (x : MElem) : Option MElem × Bool :=
  match x.find "visible" with
  | none => (none, true)
  | some m => (some m, m.text != some "0")

/-- `MElement.is_visible`. -/
def MElem.is_visible (x : MElem) : Bool := x._is_visible.2

/-- Remove the first child with the given tag (Python `remove(e)` where
`e` is the child `find` returned). -/
def removeFirstTagged (t : String) : List MElem → List MElem
  | [] => []
  | c :: cs => if c.tag == t then cs else c :: removeFirstTagged t cs

/-- The synthetic hidden marker `<visible>0</visible>` that
`set_invisible` appends (built with `type(self)('visible', {})`, so its
own lock flag is false). -/
def visMarker : MElem := .node "visible" [] (some "0") [] false

/-- `MElement.set_visible`: no-op when locked; otherwise remove the
marker child when the node is currently explicitly hidden. -/
def MElem.set_visible (x : MElem) : MElem :=
  if x.is_protected then x
  else
    match x._is_visible with
    | (some _, false) => x.withChildren (removeFirstTagged "visible" x.children)
    | _ => x

/-- `MElement.set_invisible`: no-op when locked or already hidden;
otherwise append the hidden marker. -/
def MElem.set_invisible (x : MElem) : MElem :=
  if x.is_protected then x
  else if x.is_visible then x.withChildren (x.children ++ [visMarker])
  else x

mutual
/-- `MElement.set_visible_all()` (no tag filter, empty protected set, as
at every call site in animate.py): `set_visible` on every subtree node.
Python applies it in pre-order over the live tree; since `set_visible`
only removes a node's own marker child and never changes tags or texts,
the pre-order traversal equals this post-order recursion. -/
def MElem.set_visible_all : MElem → MElem
  | .node t a tx cs lk => MElem.set_visible (.node t a tx (MElem.setVisibleAllL cs) lk)

def MElem.setVisibleAllL : List MElem → List MElem
  | [] => []
  | c :: cs => c.set_visible_all :: MElem.setVisibleAllL cs
end

mutual
/-- `MElement.get_chord_subelements` + a mutator per element:
apply `f` to every subtree node whose tag is in `CHORD_SUB` (the search
never yields the chord root itself, whose tag is `Chord`). Python runs
one pre-order pass per `CHORD_SUB` tag; since `f` (always `set_visible`
or `set_invisible` here) only touches a node's own `visible` marker and
never changes tags, the five live passes equal this single recursion. -/
def MElem.chordSubMap (f : MElem → MElem) : MElem → MElem
  | .node t a tx cs lk =>
    let y : MElem := .node t a tx (MElem.chordSubMapL f cs) lk
    if CHORD_SUB.contains t then f y else y

def MElem.chordSubMapL (f : MElem → MElem) : List MElem → List MElem
  | [] => []
  | c :: cs => MElem.chordSubMap f c :: MElem.chordSubMapL f cs
end

/-- `MElement.set_visible_chord`; `none` models the `MElementTagError`
raised on a non-`Chord` node by `get_chord_subelements`. -/
def MElem.set_visible_chord? (x : MElem) : Option MElem :=
  if x.tag = "Chord" then some (x.chordSubMap MElem.set_visible) else none

/-- `MElement.set_invisible_chord`; `none` as above. -/
def MElem.set_invisible_chord? (x : MElem) : Option MElem :=
  if x.tag = "Chord" then some (x.chordSubMap MElem.set_invisible) else none

/-- `MElement.is_gracenote`: some direct child carries a grace-note tag. -/
def MElem.is_gracenote (x : MElem) : Bool :=
  x.children.any (fun c => GRACENOTE.contains c.tag)

/-- `MElement.is_unprintable`. -/
def MElem.is_unprintable (x : MElem) : Bool := UNPRINTABLE.contains x.tag

/-- `MElement.is_tuplet`. -/
def MElem.is_tuplet (x : MElem) : Bool :=
  x.tag == "Tuplet" || x.tag == "endTuplet"

/-- `MElement.tuplet_value`; `none` models the tag error, a missing or
textless `normalNotes`/`actualNotes` child, an unparsable integer, and
division by zero. -/
def MElem.tuplet_value? (x : MElem) : Option ℚ :=
  if x.tag = "Tuplet" then
    match x.find "normalNotes", x.find "actualNotes" with
    | some nn, some an =>
      match nn.text, an.text with
      | some nt, some at' =>
        match pyInt? nt, pyInt? at' with
        | some n, some a => if a = 0 then none else some ((n : ℚ) / (a : ℚ))
        | _, _ => none
      | _, _ => none
    | _, _ => none
  else if x.tag = "endTuplet" then some 1
  else none

/-- The dotted multiplier of `MElement.duration_value`:
`1` without a `dots` child, else `sum(1/2**i for i in range(dots+1))`
(an empty sum — multiplier `0` — when the parsed count is negative). -/
def MElem.dotsValue? (x : MElem) : Option ℚ :=
  match x.find "dots" with
  | none => some 1
  | some d =>
    match d.text with
    | none => none
    | some t =>
      match pyInt? t with
      | none => none
      | some n => some ((List.range (n + 1).toNat).map (fun i => 1 / (2 : ℚ) ^ i)).sum

/-- The base duration of `MElement.duration_value`: the time signature for
the literal `measure`, else the named Duration Value. -/
def MElem.durationTypeValue? (x : MElem) (timesig : ℚ) : Option ℚ :=
  match x.find "durationType" with
  | none => none
  | some dt =>
    match dt.text with
    | none => none
    | some dtt =>
      if dtt = "measure" then some timesig
      else
        match Note.from_text dtt with
        | none => none
        | some nv => some nv.value

/-- `MElement.duration_value(timesig)` for `Chord`/`Rest` nodes: the
dotted multiplier and the base duration; `none` models the tag error and
every exception the Python attribute chain can raise. -/
def MElem.duration_value? (x : MElem) (timesig : ℚ) : Option (ℚ × ℚ) :=
  if x.tag = "Chord" ∨ x.tag = "Rest" then
    match x.dotsValue?, x.durationTypeValue? timesig with
    | some dotted, some duration_type => some (dotted, duration_type)
    | _, _ => none
  else none

/-- `MElement.duration_offset` for `location` nodes:
`eval(find('fractions').text) * Note(1).value` with `Note(1).value = 1024`. -/
def MElem.duration_offset? (x : MElem) : Option ℚ :=
  if x.tag = "location" then
    match x.find "fractions" with
    | none => none
    | some f =>
      match f.text with
      | none => none
      | some t =>
        match pyFracEval? t with
        | none => none
        | some v => some (v * 1024)
  else none

/-- `MElement.tremolo_subtype(duration_type)`: first character of the
`subtype` text and the stroke Duration Value
`Note(int(text[1:]) * max(1, Note(4).value / duration_type))`
(`Note(4).value = 256`); `none` models the tag error, missing/empty
subtype, integer parse failure and the division errors. -/
def MElem.tremolo_subtype? (x : MElem) (duration_type : ℚ) : Option (Char × Note) :=
  if x.tag = "Tremolo" then
    match x.find "subtype" with
    | none => none
    | some st =>
      match st.text with
      | none => none
      | some s =>
        match pyInt? (s.drop 1), s.toList.head? with
        | some timediff, some c0 =>
          if duration_type = 0 then none
          else
            match Note.ofType? ((timediff : ℚ) * max 1 ((1024 / 4) / duration_type)) with
            | none => none
            | some nt => some (c0, nt)
        | _, _ => none
  else none

/-- `MElement.new_element(tag, text, visible)`. -/
def MElem.new_element (tag : String) (text : Option String) (visible : Bool) : MElem :=
  let e := MElem.ofTag tag
  let e := match text with
    | none => e
    | some t => .node e.tag e.attrib (some t) e.children e.visibility_locked
  if visible then e else e.set_invisible

/-- `MElement.get_next_chord` helper: scan from absolute index `i`. -/
def gncAux : List MElem → ℕ → Option (MElem × ℕ)
  | [], _ => none
  | c :: cs, i => if c.tag == "Chord" then some (c, i) else gncAux cs (i + 1)

/-- `MElement.get_next_chord(voice, index)`: first `Chord` strictly after
`index` among the voice's direct children, with its absolute index;
`.error` models the `MElementTagError` on a non-voice argument, `.ok
none` the implicit `None` fall-through. -/
def MElem.get_next_chord (voice : MElem) (index : ℕ) : Except String (Option (MElem × ℕ)) :=
  if voice.tag ≠ "voice" then .error "MElementTagError"
  else .ok (gncAux (voice.children.drop (index + 1)) (index + 1))

/-! ### Visibility-state lemmas and claims C6, C9, C10 -/

/-- A visibility-mutating operation, for stating closure properties. -/
inductive VisOp where
  | vis
  | invis

def applyVisOp (x : MElem) : VisOp → MElem
  | .vis => x.set_visible
  | .invis => x.set_invisible

theorem set_visible_of_protected (x : MElem) (h : x.is_protected = true) :
    x.set_visible = x := by
  unfold MElem.set_visible
  rw [h]
  simp

theorem set_invisible_of_protected (x : MElem) (h : x.is_protected = true) :
    x.set_invisible = x := by
  unfold MElem.set_invisible
  rw [h]
  simp

/-- C6: on a visibility-locked node every sequence of
`set_visible`/`set_invisible` calls, in any order, is a no-op. -/
theorem c6_locked_visibility_ops_are_noops (x : MElem)
    (h : x.is_protected = true) (ops : List VisOp) :
    ops.foldl applyVisOp x = x := by
  induction ops with
  | nil => rfl
  | cons op rest ih =>
    have hstep : applyVisOp x op = x := by
      cases op
      · exact set_visible_of_protected x h
      · exact set_invisible_of_protected x h
    rw [List.foldl_cons, hstep, ih]

/-- C6 witness: a `Measure` node (locked at construction) survives
`set_invisible` then `set_visible` unchanged. -/
theorem c6_witness :
    [VisOp.invis, VisOp.vis].foldl applyVisOp (MElem.ofTag "Measure") =
      MElem.ofTag "Measure" :=
  c6_locked_visibility_ops_are_noops (MElem.ofTag "Measure") (by decide)
    [VisOp.invis, VisOp.vis]

/-- Number of direct `visible` marker children. -/
def MElem.markerCount (x : MElem) : ℕ :=
  x.children.countP (fun c => c.tag == "visible")

/-- The marker-shape invariant of nodes the program itself builds: at most
one `visible` marker child, and any such marker has text `0`. -/
def GoodVis (x : MElem) : Prop :=
  (∀ c ∈ x.children, c.tag = "visible" → c.text = some "0") ∧ x.markerCount ≤ 1

instance (x : MElem) : Decidable (GoodVis x) := by
  unfold GoodVis
  exact instDecidableAnd

theorem removeFirstTagged_subset {t : String} {cs : List MElem} {c : MElem}
    (h : c ∈ removeFirstTagged t cs) : c ∈ cs := by
  induction cs with
  | nil => simp [removeFirstTagged] at h
  | cons d ds ih =>
    rw [removeFirstTagged] at h
    by_cases hd : d.tag == t
    · rw [if_pos hd] at h
      exact List.mem_cons_of_mem d h
    · rw [if_neg hd] at h
      rcases List.mem_cons.mp h with h | h
      · exact h ▸ List.mem_cons_self d ds
      · exact List.mem_cons_of_mem d (ih h)

theorem countP_removeFirstTagged {t : String} {cs : List MElem}
    (h : cs.find? (fun c => c.tag == t) ≠ none) :
    (removeFirstTagged t cs).countP (fun c => c.tag == t) =
      cs.countP (fun c => c.tag == t) - 1 := by
  induction cs with
  | nil => simp [List.find?] at h
  | cons d ds ih =>
    by_cases hd : (d.tag == t) = true
    · rw [removeFirstTagged, if_pos hd, List.countP_cons, if_pos hd]
      omega
    · rw [removeFirstTagged, if_neg hd]
      simp only [List.countP_cons, if_neg hd]
      have hdf : (d.tag == t) = false := by simpa using hd
      have h' : ds.find? (fun c => c.tag == t) ≠ none := by
        simpa [List.find?_cons, hdf] using h
      have := ih h'
      omega

/-- Decode `is_visible` under the marker-shape invariant. -/
theorem is_visible_iff_no_marker {x : MElem} (hg : GoodVis x) :
    x.is_visible = true ↔ x.markerCount = 0 := by
  unfold MElem.is_visible MElem._is_visible
  cases hf : x.find "visible" with
  | none =>
    simp only [hf]
    constructor
    · intro _
      unfold MElem.markerCount
      rw [List.countP_eq_zero]
      exact fun c hc => List.find?_eq_none.mp hf c hc
    · intro _
      trivial
  | some m =>
    simp only [hf]
    have hmem := List.mem_of_find?_eq_some hf
    have htag : m.tag = "visible" := by simpa using List.find?_some hf
    have htext : m.text = some "0" := hg.1 m hmem htag
    rw [htext]
    constructor
    · intro h
      simp at h
    · intro h
      exfalso
      unfold MElem.markerCount at h
      rw [List.countP_eq_zero] at h
      exact h m hmem (by simp [htag])

theorem find?_append_of_none {p : MElem → Bool} {l₁ l₂ : List MElem}
    (h : l₁.find? p = none) : (l₁ ++ l₂).find? p = l₂.find? p := by
  induction l₁ with
  | nil => simp
  | cons d ds ih =>
    rw [List.find?_eq_none] at h
    have hd : p d = false := by
      have := h d (List.mem_cons_self d ds)
      simpa using this
    rw [List.cons_append, List.find?_cons, hd]
    exact ih (List.find?_eq_none.mpr fun x hx => h x (List.mem_cons_of_mem d hx))

theorem withChildren_children (x : MElem) (cs : List MElem) :
    (x.withChildren cs).children = cs := by
  cases x; rfl

theorem withChildren_protected (x : MElem) (cs : List MElem) :
    (x.withChildren cs).is_protected = x.is_protected := by
  cases x; rfl

theorem set_visible_protected_eq (x : MElem) :
    (x.set_visible).is_protected = x.is_protected := by
  unfold MElem.set_visible
  split
  · rfl
  · split
    · rw [withChildren_protected]
    · rfl

theorem set_invisible_protected_eq (x : MElem) :
    (x.set_invisible).is_protected = x.is_protected := by
  unfold MElem.set_invisible
  split
  · rfl
  · split
    · rw [withChildren_protected]
    · rfl

/-- An unprotected, well-formed node ends up hidden (and stays
well-formed) after `set_invisible`. -/
theorem set_invisible_result (x : MElem) (hl : x.is_protected = false)
    (hg : GoodVis x) :
    GoodVis x.set_invisible ∧ (x.set_invisible).is_visible = false := by
  cases hv : x.is_visible with
  | false =>
    have hx : x.set_invisible = x := by
      unfold MElem.set_invisible
      rw [hl, hv]
      simp
    rw [hx]
    exact ⟨hg, hv⟩
  | true =>
    have hmc : x.markerCount = 0 := (is_visible_iff_no_marker hg).mp hv
    have hx : x.set_invisible = x.withChildren (x.children ++ [visMarker]) := by
      unfold MElem.set_invisible
      rw [hl, hv]
      simp
    have hnone : x.children.find? (fun c => c.tag == "visible") = none := by
      rw [List.find?_eq_none]
      intro c hc hcp
      have h0 := List.countP_eq_zero.mp hmc c hc
      exact h0 hcp
    constructor
    · rw [hx]
      constructor
      · intro c hc htag
        rw [withChildren_children] at hc
        rcases List.mem_append.mp hc with hc | hc
        · exact hg.1 c hc htag
        · rcases List.mem_singleton.mp hc with rfl
          rfl
      · unfold MElem.markerCount
        rw [withChildren_children, List.countP_append]
        unfold MElem.markerCount at hmc
        rw [hmc]
        simp [visMarker, MElem.tag]
    · rw [hx]
      unfold MElem.is_visible MElem._is_visible MElem.find
      rw [withChildren_children, find?_append_of_none hnone]
      simp [visMarker, MElem.tag, MElem.text]

/-- An unprotected, well-formed node ends up visible (and stays
well-formed) after `set_visible`. -/
theorem set_visible_result (x : MElem) (hl : x.is_protected = false)
    (hg : GoodVis x) :
    GoodVis x.set_visible ∧ (x.set_visible).is_visible = true := by
  cases hf : x.find "visible" with
  | none =>
    have hx : x.set_visible = x := by
      unfold MElem.set_visible MElem._is_visible
      rw [hl, hf]
      simp
    rw [hx]
    refine ⟨hg, ?_⟩
    unfold MElem.is_visible MElem._is_visible
    rw [hf]
  | some m =>
    have hmem := List.mem_of_find?_eq_some hf
    have htag : m.tag = "visible" := by simpa using List.find?_some hf
    have htext : m.text = some "0" := hg.1 m hmem htag
    have hx : x.set_visible =
        x.withChildren (removeFirstTagged "visible" x.children) := by
      unfold MElem.set_visible MElem._is_visible
      rw [hl]
      simp [hf, htext]
    have hpos : 0 < x.markerCount := by
      unfold MElem.markerCount
      rw [List.countP_pos_iff]
      exact ⟨m, hmem, by simp [htag]⟩
    have hcnt : (removeFirstTagged "visible" x.children).countP
        (fun c => c.tag == "visible") = x.markerCount - 1 :=
      countP_removeFirstTagged (by rw [MElem.find] at hf; simp [hf])
    have hg' : GoodVis x.set_visible := by
      rw [hx]
      constructor
      · intro c hc hct
        rw [withChildren_children] at hc
        exact hg.1 c (removeFirstTagged_subset hc) hct
      · unfold MElem.markerCount
        rw [withChildren_children, hcnt]
        have h1 := hg.2
        omega
    refine ⟨hg', ?_⟩
    rw [is_visible_iff_no_marker hg']
    rw [hx]
    unfold MElem.markerCount
    rw [withChildren_children, hcnt]
    have h1 := hg.2
    omega

theorem set_invisible_of_invisible (y : MElem) (h : y.is_visible = false) :
    y.set_invisible = y := by
  unfold MElem.set_invisible
  rw [h]
  simp

theorem set_visible_of_visible (y : MElem) (h : y.is_visible = true) :
    y.set_visible = y := by
  unfold MElem.set_visible
  rcases hiv : y._is_visible with ⟨e, b⟩
  have hb : b = true := by
    rw [MElem.is_visible, hiv] at h
    exact h
  subst hb
  cases e <;> simp

/-- `GoodVis` and unprotectedness survive every visibility operation. -/
theorem goodVis_foldl (x : MElem) (hl : x.is_protected = false)
    (hg : GoodVis x) (ops : List VisOp) :
    GoodVis (ops.foldl applyVisOp x) ∧
      (ops.foldl applyVisOp x).is_protected = false := by
  induction ops generalizing x with
  | nil => exact ⟨hg, hl⟩
  | cons op rest ih =>
    rw [List.foldl_cons]
    cases op with
    | vis =>
      exact ih x.set_visible (by rw [set_visible_protected_eq, hl])
        (set_visible_result x hl hg).1
    | invis =>
      exact ih x.set_invisible (by rw [set_invisible_protected_eq, hl])
        (set_invisible_result x hl hg).1

/-- A concrete node showing C9's failure: an unlocked `Note` carrying one
`visible` marker child whose text is `"1"` (not `"0"`). -/
def c9Node : MElem :=
  .node "Note" [] none [.node "visible" [] (some "1") [] false] false

/-- C9 counterexample: on `c9Node` (unlocked, at most one marker child)
`set_invisible` followed by `is_visible` returns `true`, not `false`
(the appended `0` marker hides behind the pre-existing `1` marker, which
`find` sees first), and the node ends up carrying two marker children. -/
theorem c9_counterexample :
    c9Node.visibility_locked = false ∧
    c9Node.markerCount ≤ 1 ∧
    (c9Node.set_invisible).is_visible = true ∧
    c9Node.set_invisible.markerCount = 2 := by decide

/-- C9 amended: for every unlocked node whose `visible` marker children
are well-formed (at most one, and its text is `"0"`), `set_invisible`
then `is_visible` gives `false`, `set_visible` then `is_visible` gives
`true`, both operations are idempotent, and every sequence of the two
operations leaves at most one marker child. -/
theorem c9_visibility_ops_on_wellformed_nodes (x : MElem)
    (hl : x.is_protected = false) (hg : GoodVis x) :
    (x.set_invisible).is_visible = false ∧
    (x.set_visible).is_visible = true ∧
    x.set_invisible.set_invisible = x.set_invisible ∧
    x.set_visible.set_visible = x.set_visible ∧
    ∀ ops : List VisOp, (ops.foldl applyVisOp x).markerCount ≤ 1 := by
  obtain ⟨hgi, hvi⟩ := set_invisible_result x hl hg
  obtain ⟨hgv, hvv⟩ := set_visible_result x hl hg
  exact ⟨hvi, hvv, set_invisible_of_invisible _ hvi,
    set_visible_of_visible _ hvv,
    fun ops => (goodVis_foldl x hl hg ops).1.2⟩

/-- C9 witness: the amended law at a bare unlocked `Note` node. -/
theorem c9_witness :
    ((MElem.node "Note" [] none [] false).set_invisible).is_visible = false ∧
    ((MElem.node "Note" [] none [] false).set_visible).is_visible = true :=
  ⟨(c9_visibility_ops_on_wellformed_nodes (.node "Note" [] none [] false)
      (by decide) (by decide)).1,
   (c9_visibility_ops_on_wellformed_nodes (.node "Note" [] none [] false)
      (by decide) (by decide)).2.1⟩

/-- Scan semantics of `gncAux`: it finds the first `Chord` at or after
the absolute base index. -/
theorem gncAux_spec (l : List MElem) (base : ℕ) :
    (∀ c j, gncAux l base = some (c, j) ↔
      ∃ r, j = base + r ∧ l.get? r = some c ∧ c.tag = "Chord" ∧
        ∀ q, q < r → ∀ e, l.get? q = some e → e.tag ≠ "Chord") ∧
    (gncAux l base = none ↔ ∀ e ∈ l, e.tag ≠ "Chord") := by
  induction l generalizing base with
  | nil =>
    constructor
    · intro c j
      simp [gncAux]
    · simp [gncAux]
  | cons d ds ih =>
    by_cases hd : (d.tag == "Chord") = true
    · have hdt : d.tag = "Chord" := by simpa using hd
      constructor
      · intro c j
        rw [gncAux, if_pos hd]
        constructor
        · intro h
          obtain ⟨rfl, rfl⟩ : d = c ∧ base = j := by
            have hp := Option.some.inj h
            exact ⟨congrArg Prod.fst hp, congrArg Prod.snd hp⟩
          refine ⟨0, by omega, by simp, hdt, ?_⟩
          intro q hq
          exact absurd hq (Nat.not_lt_zero q)
        · rintro ⟨r, rfl, hget, hc, hmin⟩
          cases r with
          | zero =>
            simp at hget
            rw [hget]
            simp
          | succ r' =>
            exfalso
            exact hmin 0 (by omega) d (by simp) hdt
      · rw [gncAux, if_pos hd]
        constructor
        · intro h
          simp at h
        · intro h
          exact absurd hdt (h d (List.mem_cons_self d ds))
    · have hdt : d.tag ≠ "Chord" := by simpa using hd
      constructor
      · intro c j
        rw [gncAux, if_neg hd]
        rw [(ih (base + 1)).1 c j]
        constructor
        · rintro ⟨r, rfl, hget, hc, hmin⟩
          refine ⟨r + 1, by omega, by simpa using hget, hc, ?_⟩
          intro q hq e hge
          cases q with
          | zero =>
            simp at hge
            rw [← hge]
            exact hdt
          | succ q' =>
            exact hmin q' (by omega) e (by simpa using hge)
        · rintro ⟨r, hj, hget, hc, hmin⟩
          cases r with
          | zero =>
            exfalso
            simp at hget
            apply hdt
            rw [hget]
            exact hc
          | succ r' =>
            refine ⟨r', by omega, by simpa using hget, hc, ?_⟩
            intro q hq e hge
            exact hmin (q + 1) (by omega) e (by simpa using hge)
      · rw [gncAux, if_neg hd]
        rw [(ih (base + 1)).2]
        constructor
        · intro h e he
          rcases List.mem_cons.mp he with rfl | he
          · exact hdt
          · exact h e he
        · intro h e he
          exact h e (List.mem_cons_of_mem d he)

/-- C10: `get_next_chord(voice, i)` on a `voice`-tagged node returns the
first element strictly after index `i` whose tag is `Chord`, together
with its absolute index, and returns `None` exactly when no such element
exists — in which case (as for a between-chord tremolo on the last chord
of a voice) the caller receives no following chord to operate on. -/
theorem c10_get_next_chord (voice : MElem) (h : voice.tag = "voice") (index : ℕ) :
    (∀ c j, voice.get_next_chord index = .ok (some (c, j)) ↔
      (index < j ∧ voice.children.get? j = some c ∧ c.tag = "Chord" ∧
        ∀ k, index < k → k < j → ∀ e, voice.children.get? k = some e →
          e.tag ≠ "Chord")) ∧
    (voice.get_next_chord index = .ok none ↔
      ∀ k, index < k → ∀ e, voice.children.get? k = some e →
        e.tag ≠ "Chord") := by
  unfold MElem.get_next_chord
  rw [if_neg (by simp [h])]
  have hdrop : ∀ r, (voice.children.drop (index + 1)).get? r =
      voice.children.get? (index + 1 + r) := by
    intro r
    simp [List.get?_drop]
  obtain ⟨hsome, hnone⟩ := gncAux_spec (voice.children.drop (index + 1)) (index + 1)
  constructor
  · intro c j
    rw [show (Except.ok (gncAux (voice.children.drop (index + 1)) (index + 1)) :
        Except String (Option (MElem × ℕ))) = .ok (some (c, j)) ↔
        gncAux (voice.children.drop (index + 1)) (index + 1) = some (c, j) by
      constructor
      · intro hh; exact Except.ok.inj hh
      · intro hh; rw [hh]]
    rw [hsome c j]
    constructor
    · rintro ⟨r, rfl, hget, hc, hmin⟩
      rw [hdrop] at hget
      refine ⟨by omega, hget, hc, ?_⟩
      intro k hk1 hk2 e hge
      have hk : k - (index + 1) < r := by omega
      refine hmin (k - (index + 1)) hk e ?_
      rw [hdrop]
      have : index + 1 + (k - (index + 1)) = k := by omega
      rw [this]
      exact hge
    · rintro ⟨hj, hget, hc, hmin⟩
      refine ⟨j - (index + 1), by omega, ?_, hc, ?_⟩
      · rw [hdrop]
        have : index + 1 + (j - (index + 1)) = j := by omega
        rw [this]
        exact hget
      · intro q hq e hge
        rw [hdrop] at hge
        exact hmin (index + 1 + q) (by omega) (by omega) e hge
  · rw [show (Except.ok (gncAux (voice.children.drop (index + 1)) (index + 1)) :
        Except String (Option (MElem × ℕ))) = .ok none ↔
        gncAux (voice.children.drop (index + 1)) (index + 1) = none by
      constructor
      · intro hh; exact Except.ok.inj hh
      · intro hh; rw [hh]]
    rw [hnone]
    constructor
    · intro hh k hk e hge
      refine hh e ?_
      have : voice.children.get? (index + 1 + (k - (index + 1))) = some e := by
        have : index + 1 + (k - (index + 1)) = k := by omega
        rw [this]
        exact hge
      rw [← hdrop] at this
      exact List.get?_mem this
    · intro hh e he
      rcases List.get?_of_mem he with ⟨r, hr⟩
      rw [hdrop] at hr
      exact hh (index + 1 + r) (by omega) e hr

/-- C10 witness: in a voice `[Rest, Chord]`, the chord after index 0 is
found at absolute index 1. -/
theorem c10_witness :
    (MElem.node "voice" [] none
        [.node "Rest" [] none [] false, .node "Chord" [] none [] false]
        false).get_next_chord 0 =
      .ok (some (.node "Chord" [] none [] false, 1)) :=
  ((c10_get_next_chord
      (.node "voice" [] none
        [.node "Rest" [] none [] false, .node "Chord" [] none [] false] false)
      rfl 0).1 (.node "Chord" [] none [] false) 1).mpr
    ⟨by omega, by simp [MElem.children], rfl,
      by
        intro k hk1 hk2
        exact absurd hk2 (by omega)⟩

/-! ### animate.py — the Visibility State Machine -/

/-- `Amusing._last_element_in_measure(duration, max_duration)`:
`max_duration < duration - 0.01`. -/
def last_element_in_measure (duration max_duration : ℚ) : Bool :=
  decide (max_duration < duration - 1/100)

/-- Replace the first child with the given tag by `f` of it (the in-place
mutation of the child object that `find` returned). -/
def updFirstTaggedL (t : String) (f : MElem → MElem) : List MElem → List MElem
  | [] => []
  | c :: cs => if c.tag == t then f c :: cs else c :: updFirstTaggedL t f cs

def MElem.updFirstTagged (x : MElem) (t : String) (f : MElem → MElem) : MElem :=
  x.withChildren (updFirstTaggedL t f x.children)

/-- `Amusing._visibilize_tremolo`. `cs` is the live children list of the
voice, `element = cs[element_index]` the chord being scanned (already
baseline-revealed by the caller); `voiceTag` is the voice node's tag
(`get_next_chord` consults only the tag and the children). The returned
list is the updated `cs`; the returned index is the new
`next_tremolo_element_index`. `none` models every exception the Python
code can raise here: a bad tremolo subtype, the `MElementTagError` of
`get_next_chord` on a non-voice parent, the `TypeError` of unpacking
`None` when no chord follows, and the `MElementTagError` of
`set_visible_chord`/`set_invisible_chord` on a non-`Chord` element. -/
def visibilizeTremolo (voiceTag : String) (cs : List MElem) (element : MElem)
    (element_index : ℕ) (duration duration_type chord_duration : ℚ)
    (next_tremolo_element_index : Option ℕ) (max_duration : ℚ)
    (max_tremolo : Note) : Option (List MElem × Option ℕ) :=
  match element.find "Tremolo" with
  | none => some (cs, next_tremolo_element_index)
  | some tremolo =>
    match tremolo.tremolo_subtype? duration_type with
    | none => none
    | some (subtype_c, tremolo_timediff) =>
      if subtype_c = 'c' then
        match MElem.get_next_chord (.node voiceTag [] none cs false) element_index with
        | .error _ => none
        | .ok none => none
        | .ok (some (next_element, next_idx)) =>
          if last_element_in_measure (duration + chord_duration) max_duration then
            if tremolo_timediff.value ≥ max_tremolo.value - 1/100 then
              -- tremolo.set_visible() acts on the found child of `element`
              if pyMod (max_duration - duration) (2 * tremolo_timediff.value) /
                  tremolo_timediff.value < 1 then
                match (element.updFirstTagged "Tremolo" MElem.set_visible).set_visible_chord?,
                    next_element.set_invisible_chord? with
                | some element2, some next2 =>
                  some ((cs.set element_index element2).set next_idx next2, some next_idx)
                | _, _ => none
              else
                match (element.updFirstTagged "Tremolo" MElem.set_visible).set_invisible_chord?,
                    next_element.set_visible_chord? with
                | some element2, some next2 =>
                  some ((cs.set element_index element2).set next_idx next2, some next_idx)
                | _, _ => none
            else
              some (cs.set next_idx next_element.set_visible_all, some next_idx)
          else
            some ((cs.set element_index element.set_visible).set next_idx
              next_element.set_visible, some next_idx)
      else
        some (cs, next_tremolo_element_index)

theorem visibilizeTremolo_length {voiceTag : String} {cs : List MElem}
    {element : MElem} {element_index : ℕ}
    {duration duration_type chord_duration : ℚ} {ntei : Option ℕ}
    {max_duration : ℚ} {max_tremolo : Note} {cs' : List MElem} {n : Option ℕ}
    (h : visibilizeTremolo voiceTag cs element element_index duration
      duration_type chord_duration ntei max_duration max_tremolo =
        some (cs', n)) : cs'.length = cs.length := by
  unfold visibilizeTremolo at h
  repeat' split at h
  all_goals cases h
  all_goals simp [List.length_set]

/-- The per-element dispatch of `Amusing._visibilize_measure`'s scan (the
chain `is_gracenote` / `location` / tuplet / `Chord`-or-`Rest`), applied
to the already baseline-revealed `element` with `cs1 = cs.set i element`:
returns the updated children list and the new (duration, tuplet,
next-tremolo-index) state. -/
def voiceStep (voiceTag : String) (time_sig max_duration : ℚ)
    (max_tremolo : Note) (cs1 : List MElem) (element : MElem) (i : ℕ)
    (duration tuplet : ℚ) (ntei : Option ℕ) :
    Option (List MElem × ℚ × ℚ × Option ℕ) :=
  if element.is_gracenote then
    some (cs1, duration, tuplet, ntei)
  else if element.tag = "location" then
    match element.duration_offset? with
    | none => none
    | some off => some (cs1, duration + off, tuplet, ntei)
  else if element.is_tuplet then
    match element.tuplet_value? with
    | none => none
    | some tv => some (cs1, duration, tv, ntei)
  else if element.tag = "Chord" ∨ element.tag = "Rest" then
    match element.duration_value? time_sig with
    | none => none
    | some (dotted, duration_type) =>
      match visibilizeTremolo voiceTag cs1 element i duration
          duration_type (tuplet * dotted * duration_type) ntei max_duration
          max_tremolo with
      | none => none
      | some (cs2, ntei') =>
        some (cs2, duration + tuplet * dotted * duration_type, tuplet, ntei')
  else
    some (cs1, duration, tuplet, ntei)

theorem voiceStep_length {voiceTag : String} {time_sig max_duration : ℚ}
    {max_tremolo : Note} {cs1 : List MElem} {element : MElem} {i : ℕ}
    {duration tuplet : ℚ} {ntei : Option ℕ} {cs2 : List MElem}
    {d' t' : ℚ} {n' : Option ℕ}
    (h : voiceStep voiceTag time_sig max_duration max_tremolo cs1 element i
      duration tuplet ntei = some (cs2, d', t', n')) :
    cs2.length = cs1.length := by
  unfold voiceStep at h
  repeat' split at h
  all_goals cases h
  all_goals
    first
    | rfl
    | exact visibilizeTremolo_length (by assumption)

/-- The per-voice scan of `Amusing._visibilize_measure` (the body of
`for element_index, element in enumerate(voice)`), with the running
cumulative duration, tuplet multiplier and pending tremolo-skip index as
explicit state. Besides the final children list it returns the index at
which the `break` fired (`none` if the loop ran to the end), which is the
observable stopping point of the scan. -/
def visibilizeVoiceLoop (voiceTag : String) (time_sig max_duration : ℚ)
    (max_tremolo : Note) (cs : List MElem) (i : ℕ) (duration tuplet : ℚ)
    (ntei : Option ℕ) : Option (List MElem × Option ℕ) :=
  if hi : i < cs.length then
    let element := cs.get ⟨i, hi⟩
    if ntei = some i then
      -- the skipped partner chord of a tremolo pair: bulk reveal, no
      -- duration bookkeeping, no break check
      visibilizeVoiceLoop voiceTag time_sig max_duration max_tremolo
        (cs.set i element.set_visible_all) (i + 1) duration tuplet none
    else
      match hstep : voiceStep voiceTag time_sig max_duration max_tremolo
          (cs.set i element.set_visible_all) element.set_visible_all i
          duration tuplet ntei with
      | none => none
      | some (cs2, duration', tuplet', ntei') =>
        if last_element_in_measure duration' max_duration then
          some (cs2, some i)
        else
          visibilizeVoiceLoop voiceTag time_sig max_duration max_tremolo
            cs2 (i + 1) duration' tuplet' ntei'
  else
    some (cs, none)
termination_by cs.length - i
decreasing_by
  · simp only [List.length_set]
    omega
  · have hlen : cs2.length = cs.length := by
      rw [voiceStep_length hstep]
      simp [List.length_set]
    omega

/-! ### Commutation of the reveal pass with the structural queries -/

theorem set_visible_tag (x : MElem) : x.set_visible.tag = x.tag := by
  unfold MElem.set_visible
  split
  · rfl
  · split
    · cases x; rfl
    · rfl

theorem set_visible_text (x : MElem) : x.set_visible.text = x.text := by
  unfold MElem.set_visible
  split
  · rfl
  · split
    · cases x; rfl
    · rfl

theorem set_invisible_tag (x : MElem) : x.set_invisible.tag = x.tag := by
  unfold MElem.set_invisible
  split
  · rfl
  · split
    · cases x; rfl
    · rfl

theorem set_invisible_text (x : MElem) : x.set_invisible.text = x.text := by
  unfold MElem.set_invisible
  split
  · rfl
  · split
    · cases x; rfl
    · rfl

theorem set_visible_all_tag (x : MElem) : x.set_visible_all.tag = x.tag := by
  cases x
  rw [MElem.set_visible_all, set_visible_tag]
  rfl

theorem set_visible_all_text (x : MElem) : x.set_visible_all.text = x.text := by
  cases x
  rw [MElem.set_visible_all, set_visible_text]
  rfl

theorem setVisibleAllL_eq_map (cs : List MElem) :
    MElem.setVisibleAllL cs = cs.map MElem.set_visible_all := by
  induction cs with
  | nil => rfl
  | cons c cs ih => rw [MElem.setVisibleAllL, ih, List.map_cons]

theorem find?_removeFirstTagged {t t' : String} (h : t' ≠ t) (cs : List MElem) :
    (removeFirstTagged t cs).find? (fun c => c.tag == t') =
      cs.find? (fun c => c.tag == t') := by
  induction cs with
  | nil => rfl
  | cons c cs ih =>
    by_cases hc : (c.tag == t) = true
    · have hct : c.tag = t := by simpa using hc
      have hne : (c.tag == t') = false := by
        simp [hct]
        exact fun contra => h contra.symm
      rw [removeFirstTagged, if_pos hc, List.find?_cons, hne]
    · rw [removeFirstTagged, if_neg hc]
      by_cases hc' : (c.tag == t') = true
      · rw [List.find?_cons, hc', List.find?_cons, hc']
      · have hcf : (c.tag == t') = false := by simpa using hc'
        rw [List.find?_cons, hcf, List.find?_cons, hcf, ih]

theorem find?_map_tag_preserving {f : MElem → MElem}
    (hf : ∀ c, (f c).tag = c.tag) (t' : String) (cs : List MElem) :
    (cs.map f).find? (fun c => c.tag == t') =
      (cs.find? (fun c => c.tag == t')).map f := by
  induction cs with
  | nil => rfl
  | cons c cs ih =>
    rw [List.map_cons, List.find?_cons, List.find?_cons, hf c]
    by_cases hc : (c.tag == t') = true
    · rw [hc]; rfl
    · have hcf : (c.tag == t') = false := by simpa using hc
      rw [hcf, ih]

/-- The children of `set_visible x` are the children of `x` with possibly
one `visible`-tagged element removed. -/
theorem set_visible_children (x : MElem) :
    x.set_visible.children = x.children ∨
      x.set_visible.children = removeFirstTagged "visible" x.children := by
  unfold MElem.set_visible
  split
  · exact Or.inl rfl
  · split
    · right
      cases x; rfl
    · exact Or.inl rfl

theorem find_set_visible {t' : String} (h : t' ≠ "visible") (x : MElem) :
    x.set_visible.find t' = x.find t' := by
  unfold MElem.find
  rcases set_visible_children x with hc | hc
  · rw [hc]
  · rw [hc, find?_removeFirstTagged h]

theorem find_set_visible_all {t' : String} (h : t' ≠ "visible") (x : MElem) :
    x.set_visible_all.find t' = (x.find t').map MElem.set_visible_all := by
  cases x with
  | node t a tx cs lk =>
    rw [MElem.set_visible_all, find_set_visible h, setVisibleAllL_eq_map]
    show (cs.map MElem.set_visible_all).find? (fun c => c.tag == t') = _
    rw [find?_map_tag_preserving set_visible_all_tag]
    rfl

theorem any_removeFirstTagged {t : String} {p : MElem → Bool}
    (hp : ∀ c, c.tag = t → p c = false) (cs : List MElem) :
    (removeFirstTagged t cs).any p = cs.any p := by
  induction cs with
  | nil => rfl
  | cons c cs ih =>
    by_cases hc : (c.tag == t) = true
    · have hct : c.tag = t := by simpa using hc
      rw [removeFirstTagged, if_pos hc, List.any_cons, hp c hct]
      simp
    · rw [removeFirstTagged, if_neg hc, List.any_cons, List.any_cons, ih]

theorem any_gracenote_map_sva (cs : List MElem) :
    (cs.map MElem.set_visible_all).any (fun c => GRACENOTE.contains c.tag) =
      cs.any (fun c => GRACENOTE.contains c.tag) := by
  induction cs with
  | nil => rfl
  | cons c cs ih =>
    rw [List.map_cons, List.any_cons, List.any_cons, set_visible_all_tag, ih]

theorem is_gracenote_set_visible_all (x : MElem) :
    x.set_visible_all.is_gracenote = x.is_gracenote := by
  cases x with
  | node t a tx cs lk =>
    unfold MElem.is_gracenote
    rw [MElem.set_visible_all]
    rcases set_visible_children
        (MElem.node t a tx (MElem.setVisibleAllL cs) lk) with hc | hc
    · rw [hc]
      show (MElem.setVisibleAllL cs).any _ = cs.any _
      rw [setVisibleAllL_eq_map, any_gracenote_map_sva]
    · rw [hc]
      show (removeFirstTagged "visible" (MElem.setVisibleAllL cs)).any _ = cs.any _
      rw [any_removeFirstTagged (fun c hct => by rw [hct]; decide),
        setVisibleAllL_eq_map, any_gracenote_map_sva]

theorem is_tuplet_set_visible_all (x : MElem) :
    x.set_visible_all.is_tuplet = x.is_tuplet := by
  unfold MElem.is_tuplet
  rw [set_visible_all_tag]

theorem duration_offset_set_visible_all (x : MElem) :
    x.set_visible_all.duration_offset? = x.duration_offset? := by
  unfold MElem.duration_offset?
  rw [set_visible_all_tag]
  split
  · rw [find_set_visible_all (by decide)]
    cases x.find "fractions" with
    | none => rfl
    | some f =>
      show (match (MElem.set_visible_all f).text with
        | none => none
        | some t => _) = _
      rw [set_visible_all_text]
  · rfl

theorem tuplet_value_set_visible_all (x : MElem) :
    x.set_visible_all.tuplet_value? = x.tuplet_value? := by
  unfold MElem.tuplet_value?
  rw [set_visible_all_tag]
  split
  · rw [find_set_visible_all (by decide), find_set_visible_all (by decide)]
    cases x.find "normalNotes" with
    | none => cases x.find "actualNotes" <;> rfl
    | some nn =>
      cases x.find "actualNotes" with
      | none => rfl
      | some an =>
        show (match (MElem.set_visible_all nn).text,
            (MElem.set_visible_all an).text with
          | some nt, some at' => _
          | _, _ => none) = _
        rw [set_visible_all_text, set_visible_all_text]
  · rfl

theorem dotsValue_set_visible_all (x : MElem) :
    x.set_visible_all.dotsValue? = x.dotsValue? := by
  unfold MElem.dotsValue?
  rw [find_set_visible_all (by decide)]
  cases x.find "dots" with
  | none => rfl
  | some d =>
    show (match (MElem.set_visible_all d).text with
      | none => none
      | some t => _) = _
    rw [set_visible_all_text]

theorem durationTypeValue_set_visible_all (x : MElem) (ts : ℚ) :
    x.set_visible_all.durationTypeValue? ts = x.durationTypeValue? ts := by
  unfold MElem.durationTypeValue?
  rw [find_set_visible_all (by decide)]
  cases x.find "durationType" with
  | none => rfl
  | some dt =>
    show (match (MElem.set_visible_all dt).text with
      | none => none
      | some dtt => _) = _
    rw [set_visible_all_text]

theorem duration_value_set_visible_all (x : MElem) (ts : ℚ) :
    x.set_visible_all.duration_value? ts = x.duration_value? ts := by
  unfold MElem.duration_value?
  rw [set_visible_all_tag, dotsValue_set_visible_all,
    durationTypeValue_set_visible_all]

theorem find_tremolo_set_visible_all (x : MElem) :
    x.set_visible_all.find "Tremolo" = (x.find "Tremolo").map MElem.set_visible_all :=
  find_set_visible_all (by decide) x

/-! ### Claim C1 — the stop rule of the voice scan -/

/-- Modelled from the spec (§4.3): the pure cursor/tuplet effect of one
scanned element — no duration for a grace note, a signed offset for a
`location`, a multiplier update for tuplet markers, and
`tuplet × dotted × base` for a `Chord`/`Rest`. -/
def specStep (time_sig : ℚ) (e : MElem) (duration tuplet : ℚ) : Option (ℚ × ℚ) :=
  if e.is_gracenote then some (duration, tuplet)
  else if e.tag = "location" then
    match e.duration_offset? with
    | none => none
    | some off => some (duration + off, tuplet)
  else if e.is_tuplet then
    match e.tuplet_value? with
    | none => none
    | some tv => some (duration, tv)
  else if e.tag = "Chord" ∨ e.tag = "Rest" then
    match e.duration_value? time_sig with
    | none => none
    | some (dotted, duration_type) =>
      some (duration + tuplet * dotted * duration_type, tuplet)
  else some (duration, tuplet)

/-- Modelled from the spec (§4.3): the claimed stopping rule — the scan
stops at the first element after whose cursor contribution the running
cursor strictly exceeds the threshold `thr` (the claim as written uses
`thr = cutoff - ε`, the amended claim `thr = cutoff + ε`); the result is
the 0-based index of the stopping element, `none` when the whole list is
scanned. Fails (`none` outside) where the element data fails to parse. -/
def specScanStop (thr time_sig : ℚ) : List MElem → ℚ → ℚ → Option (Option ℕ)
  | [], _, _ => some none
  | e :: rest, duration, tuplet =>
    match specStep time_sig e duration tuplet with
    | none => none
    | some (d', t') =>
      if thr < d' then some (some 0)
      else
        match specScanStop thr time_sig rest d' t' with
        | none => none
        | some stop => some (stop.map (fun r => r + 1))

/-- The code's break test agrees with a strict `cutoff + ε` threshold. -/
theorem last_element_iff_eps (d m : ℚ) :
    last_element_in_measure d m = true ↔ m + 1/100 < d := by
  unfold last_element_in_measure
  rw [decide_eq_true_eq]
  constructor <;> intro h <;> linarith

/-- On a tremolo-free element the dispatch step is exactly the spec's
cursor arithmetic, leaves the children untouched and clears no skip. -/
theorem voiceStep_no_trem (voiceTag : String) (ts maxDur : ℚ) (mt : Note)
    (cs1 : List MElem) (element : MElem) (i : ℕ) (duration tuplet : ℚ)
    (hnt : element.find "Tremolo" = none) :
    voiceStep voiceTag ts maxDur mt cs1 element.set_visible_all i duration
        tuplet none =
      (specStep ts element duration tuplet).map
        (fun p => (cs1, p.1, p.2, none)) := by
  unfold voiceStep specStep
  rw [is_gracenote_set_visible_all, set_visible_all_tag,
    is_tuplet_set_visible_all, duration_offset_set_visible_all,
    tuplet_value_set_visible_all, duration_value_set_visible_all]
  by_cases h1 : element.is_gracenote = true
  · rw [if_pos h1, if_pos h1]
    rfl
  · rw [if_neg h1, if_neg h1]
    by_cases h2 : element.tag = "location"
    · rw [if_pos h2, if_pos h2]
      cases element.duration_offset? <;> rfl
    · rw [if_neg h2, if_neg h2]
      by_cases h3 : element.is_tuplet = true
      · rw [if_pos h3, if_pos h3]
        cases element.tuplet_value? <;> rfl
      · rw [if_neg h3, if_neg h3]
        by_cases h4 : element.tag = "Chord" ∨ element.tag = "Rest"
        · rw [if_pos h4, if_pos h4]
          cases element.duration_value? ts with
          | none => rfl
          | some p =>
            cases p with
            | mk dotted duration_type =>
              have htr : (MElem.set_visible_all element).find "Tremolo" = none := by
                rw [find_tremolo_set_visible_all, hnt]
                rfl
              show (match visibilizeTremolo voiceTag cs1
                  element.set_visible_all i duration duration_type
                  (tuplet * dotted * duration_type) none maxDur mt with
                | none => none
                | some (cs2, ntei') =>
                  some (cs2, duration + tuplet * dotted * duration_type,
                    tuplet, ntei')) = _
              rw [show visibilizeTremolo voiceTag cs1 element.set_visible_all i
                  duration duration_type (tuplet * dotted * duration_type)
                  none maxDur mt = some (cs1, none) by
                unfold visibilizeTremolo
                rw [htr]]
              rfl
        · rw [if_neg h4, if_neg h4]
          rfl

theorem drop_succ_set (cs : List MElem) (i : ℕ) (x : MElem) :
    (cs.set i x).drop (i + 1) = cs.drop (i + 1) := by
  induction cs generalizing i with
  | nil => rfl
  | cons c cs ih =>
    cases i with
    | zero => rfl
    | succ i' =>
      show ((c :: cs.set i' x) : List MElem).drop (i' + 2) = _
      rw [List.drop_succ_cons, List.drop_succ_cons, ih]

theorem get?_set_self_of_lt (l : List MElem) (i : ℕ) (x : MElem)
    (h : i < l.length) : (l.set i x).get? i = some x := by
  induction l generalizing i with
  | nil => simp at h
  | cons c cs ih =>
    cases i with
    | zero => rfl
    | succ i' =>
      show (cs.set i' x).get? i' = some x
      exact ih i' (by simpa using h)

theorem get?_set_other (l : List MElem) (i j : ℕ) (x : MElem) (h : i ≠ j) :
    (l.set i x).get? j = l.get? j := by
  induction l generalizing i j with
  | nil => rfl
  | cons c cs ih =>
    cases i with
    | zero =>
      cases j with
      | zero => exact absurd rfl h
      | succ j' => rfl
    | succ i' =>
      cases j with
      | zero => rfl
      | succ j' =>
        show (cs.set i' x).get? j' = cs.get? j'
        exact ih i' j' (by omega)

theorem specScanStop_cons (thr ts : ℚ) (e : MElem) (rest : List MElem)
    (duration tuplet d' t' : ℚ)
    (h : specStep ts e duration tuplet = some (d', t')) :
    specScanStop thr ts (e :: rest) duration tuplet =
      if thr < d' then some (some 0)
      else
        match specScanStop thr ts rest d' t' with
        | none => none
        | some stop => some (stop.map (fun r => r + 1)) := by
  rw [specScanStop, h]

/-- The tremolo-free voice scan, related to the spec's stop rule: on a
voice whose elements carry no `Tremolo` child, a successful scan from
index `i` stops exactly at the first element after whose contribution the
cursor exceeds `max_duration + 1/100`; every element up to and including
the stopping index is replaced by its bulk reveal `set_visible_all`, and
every element after it is untouched. -/
theorem loop_spec_no_trem (voiceTag : String) (ts maxDur : ℚ) (mt : Note) :
    ∀ (k : ℕ) (cs : List MElem) (i : ℕ) (duration tuplet : ℚ)
      (cs' : List MElem) (stop : Option ℕ),
      cs.length - i = k →
      (∀ j, i ≤ j → ∀ e, cs.get? j = some e → e.find "Tremolo" = none) →
      visibilizeVoiceLoop voiceTag ts maxDur mt cs i duration tuplet none =
        some (cs', stop) →
      (∃ stopRel, specScanStop (maxDur + 1/100) ts (cs.drop i) duration tuplet =
          some stopRel ∧ stop = stopRel.map (fun r => i + r)) ∧
      cs'.length = cs.length ∧
      (∀ j, j < i → cs'.get? j = cs.get? j) ∧
      (∀ j, i ≤ j → (match stop with | some s => j ≤ s | none => True) →
        cs'.get? j = (cs.get? j).map MElem.set_visible_all) ∧
      (∀ j, i ≤ j → (match stop with | some s => s < j | none => False) →
        cs'.get? j = cs.get? j) := by
  intro k
  induction k using Nat.strong_induction_on with
  | _ k ihk =>
    intro cs i duration tuplet cs' stop hk hnt hrun
    by_cases hi : i < cs.length
    · unfold visibilizeVoiceLoop at hrun
      rw [dif_pos hi, if_neg (by simp)] at hrun
      have hel : cs.get? i = some (cs.get ⟨i, hi⟩) := List.get?_eq_get hi
      have hnti : (cs.get ⟨i, hi⟩).find "Tremolo" = none :=
        hnt i (Nat.le_refl i) _ hel
      have hvs := voiceStep_no_trem voiceTag ts maxDur mt
        (cs.set i (cs.get ⟨i, hi⟩).set_visible_all) (cs.get ⟨i, hi⟩) i
        duration tuplet hnti
      split at hrun
      · exact absurd hrun (by simp)
      · rename_i cs2 duration' tuplet' ntei' heq
        rw [hvs] at heq
        cases hspec : specStep ts (cs.get ⟨i, hi⟩) duration tuplet with
        | none =>
          rw [hspec] at heq
          exact absurd heq (by simp)
        | some p =>
          rw [hspec] at heq
          obtain ⟨d', t'⟩ := p
          simp only [Option.map_some', Option.some.injEq, Prod.mk.injEq] at heq
          obtain ⟨rfl, rfl, rfl, rfl⟩ := heq
          have hdropi : cs.drop i = cs.get ⟨i, hi⟩ :: cs.drop (i + 1) := by
            rw [List.drop_eq_getElem_cons hi]
            rfl
          by_cases hbrk : last_element_in_measure d' maxDur = true
          · rw [if_pos hbrk] at hrun
            simp only [Option.some.injEq, Prod.mk.injEq] at hrun
            obtain ⟨rfl, rfl⟩ := hrun
            refine ⟨⟨some 0, ?_, by simp⟩, by simp, ?_, ?_, ?_⟩
            · have hcond : maxDur + 1/100 < d' :=
                (last_element_iff_eps d' maxDur).mp hbrk
              rw [hdropi, specScanStop_cons _ _ _ _ _ _ _ _ hspec, if_pos hcond]
            · intro j hj
              exact get?_set_other cs i j _ (by omega)
            · intro j hj1 hj2
              have hj2' : j ≤ i := hj2
              have : j = i := by omega
              subst this
              rw [get?_set_self_of_lt cs j _ hi, hel]
              rfl
            · intro j hj1 hj2
              have hj2' : i < j := hj2
              exact get?_set_other cs i j _ (by omega)
          · rw [if_neg hbrk] at hrun
            have hlen1 : (cs.set i (cs.get ⟨i, hi⟩).set_visible_all).length =
                cs.length := by simp
            have hless : (cs.set i (cs.get ⟨i, hi⟩).set_visible_all).length -
                (i + 1) < k := by
              rw [hlen1]; omega
            have hnt1 : ∀ j, i + 1 ≤ j → ∀ e,
                (cs.set i (cs.get ⟨i, hi⟩).set_visible_all).get? j = some e →
                e.find "Tremolo" = none := by
              intro j hj e hge
              rw [get?_set_other cs i j _ (by omega)] at hge
              exact hnt j (by omega) e hge
            obtain ⟨⟨stopRel', hspec', hstop'⟩, hlen', hB', hC', hD'⟩ :=
              ihk _ hless _ (i + 1) d' t' cs' stop rfl hnt1 hrun
            have hdropset : (cs.set i (cs.get ⟨i, hi⟩).set_visible_all).drop
                (i + 1) = cs.drop (i + 1) := drop_succ_set cs i _
            rw [hdropset] at hspec'
            refine ⟨⟨stopRel'.map (fun r => r + 1), ?_, ?_⟩, ?_, ?_, ?_, ?_⟩
            · have hcond : ¬ (maxDur + 1/100 < d') := fun hcon =>
                hbrk ((last_element_iff_eps d' maxDur).mpr hcon)
              rw [hdropi, specScanStop_cons _ _ _ _ _ _ _ _ hspec, if_neg hcond,
                hspec']
            · rw [hstop']
              cases stopRel' with
              | none => rfl
              | some r =>
                show some (i + 1 + r) = some (i + (r + 1))
                congr 1
                omega
            · rw [hlen', hlen1]
            · intro j hj
              rw [hB' j (by omega), get?_set_other cs i j _ (by omega)]
            · intro j hj1 hj2
              by_cases hji : j = i
              · subst hji
                rw [hB' j (by omega), get?_set_self_of_lt cs j _ hi, hel]
                rfl
              · have hj1' : i + 1 ≤ j := by omega
                rw [hC' j hj1' hj2, get?_set_other cs i j _ (by omega)]
            · intro j hj1 hj2
              have hji : i + 1 ≤ j := by
                cases hs : stop with
                | none =>
                  rw [hs] at hj2
                  exact hj2.elim
                | some s =>
                  rw [hs] at hj2
                  have hj2' : s < j := hj2
                  rw [hs] at hstop'
                  cases stopRel' with
                  | none => simp at hstop'
                  | some r =>
                    have hsr : s = i + 1 + r := by
                      simpa using hstop'
                    omega
              rw [hD' j hji hj2, get?_set_other cs i j _ (by omega)]
    · unfold visibilizeVoiceLoop at hrun
      rw [dif_neg hi] at hrun
      simp only [Option.some.injEq, Prod.mk.injEq] at hrun
      obtain ⟨rfl, rfl⟩ := hrun
      refine ⟨⟨none, ?_, rfl⟩, rfl, fun j _ => rfl, ?_, fun j _ hf => absurd hf (by simp)⟩
      · rw [List.drop_eq_nil_of_le (by omega), specScanStop]
      · intro j hj _
        have : cs.get? j = none := by
          rw [List.get?_eq_none]
          omega
        rw [this]
        rfl

/-- One non-skip step of the scan loop, for evaluating concrete runs. -/
theorem loop_step_no_skip (voiceTag : String) (ts maxDur : ℚ) (mt : Note)
    (cs : List MElem) (i : ℕ) (duration tuplet : ℚ) (hi : i < cs.length)
    (element : MElem) (hel : cs.get ⟨i, hi⟩ = element) (d' t' : ℚ)
    (hv : voiceStep voiceTag ts maxDur mt (cs.set i element.set_visible_all)
        element.set_visible_all i duration tuplet none =
        some (cs.set i element.set_visible_all, d', t', none)) :
    visibilizeVoiceLoop voiceTag ts maxDur mt cs i duration tuplet none =
      if last_element_in_measure d' maxDur then
        some (cs.set i element.set_visible_all, some i)
      else
        visibilizeVoiceLoop voiceTag ts maxDur mt
          (cs.set i element.set_visible_all) (i + 1) d' t' none := by
  subst hel
  conv_lhs => rw [visibilizeVoiceLoop]
  rw [dif_pos hi, if_neg (by simp)]
  split
  · rename_i heq
    rw [hv] at heq
    cases heq
  · rename_i cs2 d2 t2 n2 heq
    rw [hv] at heq
    simp only [Option.some.injEq, Prod.mk.injEq] at heq
    obtain ⟨rfl, rfl, rfl, rfl⟩ := heq
    rfl

/-- A half-note chord with no tremolo, as parsed from
`<Chord><durationType>half</durationType></Chord>`. -/
def c1Chord : MElem :=
  .node "Chord" [] none [.node "durationType" [] (some "half") [] false] false

/-- A voice of two half-note chords (its measure is exactly filled at a
whole note = 1024 internal units). -/
def c1Voice : List MElem := [c1Chord, c1Chord]

theorem specStep_c1Chord (duration : ℚ) :
    specStep 1024 c1Chord duration 1 = some (duration + 512, 1) := by
  have h : MElem.duration_value? c1Chord 1024 = some (1, 1024 / 2) := rfl
  unfold specStep
  rw [if_neg (by decide), if_neg (by decide), if_neg (by decide),
    if_pos (show c1Chord.tag = "Chord" ∨ c1Chord.tag = "Rest" from by decide), h]
  norm_num

theorem voiceStep_c1Chord (ts' maxDur : ℚ) (mt : Note) (cs1 : List MElem)
    (i : ℕ) (duration : ℚ)
    (hts : ts' = 1024) :
    voiceStep "voice" ts' maxDur mt cs1 c1Chord.set_visible_all i duration 1
        none = some (cs1, duration + 512, 1, none) := by
  subst hts
  rw [voiceStep_no_trem "voice" 1024 maxDur mt cs1 c1Chord i duration 1 rfl,
    specStep_c1Chord]
  rfl

/-- C1 counterexample: scanning the two-half-chord voice at cutoff 512
(half the measure), the code's scan continues past the first chord —
whose end lands exactly on the cutoff — and breaks only at the second
(index 1), while the claimed rule "stop once cursor + pending duration
exceeds cutoff − ε" stops already at the first (index 0): the code's
break test is `cutoff < cursor − ε`, i.e. a `cutoff + ε` threshold, not
`cutoff − ε`. -/
theorem c1_counterexample :
    (visibilizeVoiceLoop "voice" 1024 512 ⟨32⟩ c1Voice 0 0 1 none).map
        Prod.snd = some (some 1) ∧
    specScanStop (512 - 1/100) 1024 c1Voice 0 1 = some (some 0) ∧
    (visibilizeVoiceLoop "voice" 1024 512 ⟨32⟩ c1Voice 0 0 1 none).map
        Prod.snd ≠ specScanStop (512 - 1/100) 1024 c1Voice 0 1 := by
  have h1 : (visibilizeVoiceLoop "voice" 1024 512 ⟨32⟩ c1Voice 0 0 1 none).map
      Prod.snd = some (some 1) := by
    rw [loop_step_no_skip "voice" 1024 512 ⟨32⟩ c1Voice 0 0 1 (by simp [c1Voice])
        c1Chord rfl 512 1 (by rw [voiceStep_c1Chord _ _ _ _ _ _ rfl]; norm_num),
      if_neg (by simp only [last_element_in_measure, decide_eq_true_eq]; norm_num),
      loop_step_no_skip "voice" 1024 512 ⟨32⟩
        (c1Voice.set 0 c1Chord.set_visible_all) 1 512 1 (by simp [c1Voice])
        c1Chord rfl 1024 1 (by rw [voiceStep_c1Chord _ _ _ _ _ _ rfl]; norm_num),
      if_pos (by simp only [last_element_in_measure, decide_eq_true_eq]; norm_num)]
    rfl
  have h2 : specScanStop (512 - 1/100) 1024 c1Voice 0 1 = some (some 0) := by
    rw [show c1Voice = c1Chord :: [c1Chord] from rfl,
      specScanStop_cons _ _ _ _ _ _ _ _ (specStep_c1Chord 0),
      if_pos (by norm_num)]
  refine ⟨h1, h2, ?_⟩
  rw [h1, h2]
  simp

/-- C1 amended: for every tremolo-free voice the state machine walks
successfully, the scan stops exactly at the first element after whose
cursor contribution the running cumulative duration exceeds
`cutoff + ε`, with `ε = 0.01` internal duration units (1024 units per
whole note) — not `cutoff − ε`; every element visited up to and
including the stop has the bulk reveal `set_visible_all` applied, and
every element after the stopping point keeps its prior state. -/
theorem c1_scan_stop_rule (voiceTag : String) (ts maxDur : ℚ) (mt : Note)
    (cs cs' : List MElem) (stop : Option ℕ)
    (hnt : ∀ e ∈ cs, e.find "Tremolo" = none)
    (hrun : visibilizeVoiceLoop voiceTag ts maxDur mt cs 0 0 1 none =
      some (cs', stop)) :
    specScanStop (maxDur + 1/100) ts cs 0 1 = some stop ∧
    (∀ j, (match stop with | some s => j ≤ s | none => True) →
      cs'.get? j = (cs.get? j).map MElem.set_visible_all) ∧
    (∀ j, (match stop with | some s => s < j | none => False) →
      cs'.get? j = cs.get? j) := by
  obtain ⟨⟨stopRel, hspec, hstop⟩, _, _, hC, hD⟩ :=
    loop_spec_no_trem voiceTag ts maxDur mt (cs.length - 0) cs 0 0 1 cs' stop
      rfl (fun j _ e hge => hnt e (List.get?_mem hge)) hrun
  have hstop' : stop = stopRel := by
    rw [hstop]
    cases stopRel with
    | none => rfl
    | some r => simp
  refine ⟨?_, ?_, ?_⟩
  · rw [show cs.drop 0 = cs from rfl] at hspec
    rw [hspec, hstop']
  · intro j hj
    exact hC j (Nat.zero_le j) hj
  · intro j hj
    exact hD j (Nat.zero_le j) hj

/-- C1 witness: the amended stop rule applied to a single half-note chord
at cutoff 0 — the chord's contribution (512) exceeds `0 + ε`, so the scan
stops at index 0, the chord is bulk-revealed and nothing follows. -/
theorem c1_witness :
    specScanStop (0 + 1/100) 1024 [c1Chord] 0 1 = some (some 0) ∧
    (∀ j, (match (some 0 : Option ℕ) with | some s => j ≤ s | none => True) →
      [c1Chord.set_visible_all].get? j =
        ([c1Chord].get? j).map MElem.set_visible_all) ∧
    (∀ j, (match (some 0 : Option ℕ) with | some s => s < j | none => False) →
      [c1Chord.set_visible_all].get? j = [c1Chord].get? j) := by
  refine c1_scan_stop_rule "voice" 1024 0 ⟨32⟩ [c1Chord]
    [c1Chord.set_visible_all] (some 0) ?_ ?_
  · intro e he
    rcases List.mem_singleton.mp he with rfl
    rfl
  · rw [loop_step_no_skip "voice" 1024 0 ⟨32⟩ [c1Chord] 0 0 1 (by simp)
        c1Chord rfl 512 1 (by rw [voiceStep_c1Chord _ _ _ _ _ _ rfl]; norm_num),
      if_pos (by simp only [last_element_in_measure, decide_eq_true_eq]; norm_num)]
    rfl

/-! ### Claim C2 — tremolo alternation: observables and invariants -/

mutual
/-- Every node of the subtree is unlocked and has well-formed `visible`
markers (at most one, text `"0"`): the shape the baseline pass of the
program produces for elements it is allowed to animate. -/
def MElem.allUnlockedGood : MElem → Bool
  | .node t a tx cs lk =>
    !lk && decide (GoodVis (.node t a tx cs lk)) && MElem.allUnlockedGoodL cs

def MElem.allUnlockedGoodL : List MElem → Bool
  | [] => true
  | c :: cs => c.allUnlockedGood && MElem.allUnlockedGoodL cs
end

mutual
/-- Every node of the subtree decodes as visible. -/
def MElem.allVisible : MElem → Bool
  | .node t a tx cs lk =>
    (MElem.node t a tx cs lk).is_visible && MElem.allVisibleL cs

def MElem.allVisibleL : List MElem → Bool
  | [] => true
  | c :: cs => c.allVisible && MElem.allVisibleL cs
end

mutual
/-- Every `CHORD_SUB`-tagged node of the subtree (the chord-frame
subelements) decodes as visible. -/
def MElem.chordSubAllVis : MElem → Bool
  | .node t a tx cs lk =>
    (if CHORD_SUB.contains t then (MElem.node t a tx cs lk).is_visible
      else true) && MElem.chordSubAllVisL cs

def MElem.chordSubAllVisL : List MElem → Bool
  | [] => true
  | c :: cs => c.chordSubAllVis && MElem.chordSubAllVisL cs
end

mutual
/-- Every `CHORD_SUB`-tagged node of the subtree decodes as hidden. -/
def MElem.chordSubAllInvis : MElem → Bool
  | .node t a tx cs lk =>
    (if CHORD_SUB.contains t then !(MElem.node t a tx cs lk).is_visible
      else true) && MElem.chordSubAllInvisL cs

def MElem.chordSubAllInvisL : List MElem → Bool
  | [] => true
  | c :: cs => c.chordSubAllInvis && MElem.chordSubAllInvisL cs
end

theorem allUnlockedGoodL_all (l : List MElem) :
    MElem.allUnlockedGoodL l = l.all MElem.allUnlockedGood := by
  induction l with
  | nil => rfl
  | cons c cs ih => rw [MElem.allUnlockedGoodL, ih, List.all_cons]

theorem allVisibleL_all (l : List MElem) :
    MElem.allVisibleL l = l.all MElem.allVisible := by
  induction l with
  | nil => rfl
  | cons c cs ih => rw [MElem.allVisibleL, ih, List.all_cons]

theorem chordSubAllVisL_all (l : List MElem) :
    MElem.chordSubAllVisL l = l.all MElem.chordSubAllVis := by
  induction l with
  | nil => rfl
  | cons c cs ih => rw [MElem.chordSubAllVisL, ih, List.all_cons]

theorem chordSubAllInvisL_all (l : List MElem) :
    MElem.chordSubAllInvisL l = l.all MElem.chordSubAllInvis := by
  induction l with
  | nil => rfl
  | cons c cs ih => rw [MElem.chordSubAllInvisL, ih, List.all_cons]

theorem aug_unlocked {x : MElem} (h : x.allUnlockedGood = true) :
    x.is_protected = false := by
  cases x with
  | node t a tx cs lk =>
    rw [MElem.allUnlockedGood] at h
    simp only [Bool.and_eq_true, Bool.not_eq_true'] at h
    exact h.1.1

theorem aug_goodVis {x : MElem} (h : x.allUnlockedGood = true) : GoodVis x := by
  cases x with
  | node t a tx cs lk =>
    rw [MElem.allUnlockedGood] at h
    simp only [Bool.and_eq_true, decide_eq_true_eq] at h
    exact h.1.2

theorem aug_children {x : MElem} (h : x.allUnlockedGood = true) :
    ∀ c ∈ x.children, c.allUnlockedGood = true := by
  cases x with
  | node t a tx cs lk =>
    rw [MElem.allUnlockedGood] at h
    simp only [Bool.and_eq_true] at h
    have hl := h.2
    rw [allUnlockedGoodL_all, List.all_eq_true] at hl
    exact hl

theorem chordSubMapL_eq_map (f : MElem → MElem) (l : List MElem) :
    MElem.chordSubMapL f l = l.map (MElem.chordSubMap f) := by
  induction l with
  | nil => rfl
  | cons c cs ih => rw [MElem.chordSubMapL, ih, List.map_cons]

theorem chordSubMap_tag {f : MElem → MElem} (hf : ∀ y, (f y).tag = y.tag)
    (x : MElem) : (x.chordSubMap f).tag = x.tag := by
  cases x with
  | node t a tx cs lk =>
    rw [MElem.chordSubMap]
    split
    · rw [hf]
      rfl
    · rfl

theorem chordSubMap_text {f : MElem → MElem} (hf : ∀ y, (f y).tag = y.tag)
    (hft : ∀ y, (f y).text = y.text) (x : MElem) :
    (x.chordSubMap f).text = x.text := by
  cases x with
  | node t a tx cs lk =>
    rw [MElem.chordSubMap]
    split
    · rw [hft]
      rfl
    · rfl

theorem countP_tag_map {f : MElem → MElem} (hf : ∀ y, (f y).tag = y.tag)
    (t' : String) (cs : List MElem) :
    (cs.map f).countP (fun c => c.tag == t') =
      cs.countP (fun c => c.tag == t') := by
  induction cs with
  | nil => rfl
  | cons c cs ih =>
    rw [List.map_cons, List.countP_cons, List.countP_cons, hf, ih]

/-- `GoodVis` transfers along any pointwise tag- and text-preserving
rewrite of the children. -/
theorem goodVis_map_children {f : MElem → MElem}
    (hf : ∀ y, (f y).tag = y.tag) (hft : ∀ y, (f y).text = y.text)
    (t : String) (a : List (String × String)) (tx : Option String)
    (cs : List MElem) (lk : Bool)
    (h : GoodVis (.node t a tx cs lk)) :
    GoodVis (.node t a tx (cs.map f) lk) := by
  obtain ⟨h1, h2⟩ := h
  constructor
  · intro c hc hct
    rw [show (MElem.node t a tx (cs.map f) lk).children = cs.map f from rfl,
      List.mem_map] at hc
    obtain ⟨c0, hc0, rfl⟩ := hc
    rw [hft]
    exact h1 c0 hc0 (by rw [hf] at hct; exact hct)
  · unfold MElem.markerCount at h2 ⊢
    rw [show (MElem.node t a tx (cs.map f) lk).children = cs.map f from rfl]
    rw [show (MElem.node t a tx cs lk).children = cs from rfl] at h2
    rw [countP_tag_map hf]
    exact h2

theorem allVisible_eq (z : MElem) :
    z.allVisible = (z.is_visible && MElem.allVisibleL z.children) := by
  cases z; rfl

theorem chordSubAllVis_eq (z : MElem) :
    z.chordSubAllVis = ((if CHORD_SUB.contains z.tag then z.is_visible
      else true) && MElem.chordSubAllVisL z.children) := by
  cases z; rfl

theorem chordSubAllInvis_eq (z : MElem) :
    z.chordSubAllInvis = ((if CHORD_SUB.contains z.tag then !z.is_visible
      else true) && MElem.chordSubAllInvisL z.children) := by
  cases z; rfl

theorem allUnlockedGood_eq (z : MElem) :
    z.allUnlockedGood = (!z.visibility_locked && decide (GoodVis z) &&
      MElem.allUnlockedGoodL z.children) := by
  cases z; rfl

theorem allVisibleL_removeFirstTagged {t : String} {l : List MElem}
    (h : MElem.allVisibleL l = true) :
    MElem.allVisibleL (removeFirstTagged t l) = true := by
  rw [allVisibleL_all, List.all_eq_true] at h ⊢
  exact fun z hz => h z (removeFirstTagged_subset hz)

theorem chordSubAllVisL_removeFirstTagged {t : String} {l : List MElem}
    (h : MElem.chordSubAllVisL l = true) :
    MElem.chordSubAllVisL (removeFirstTagged t l) = true := by
  rw [chordSubAllVisL_all, List.all_eq_true] at h ⊢
  exact fun z hz => h z (removeFirstTagged_subset hz)

theorem chordSubAllInvisL_append {l₁ l₂ : List MElem}
    (h₁ : MElem.chordSubAllInvisL l₁ = true)
    (h₂ : MElem.chordSubAllInvisL l₂ = true) :
    MElem.chordSubAllInvisL (l₁ ++ l₂) = true := by
  rw [chordSubAllInvisL_all, List.all_eq_true] at h₁ h₂ ⊢
  intro z hz
  rcases List.mem_append.mp hz with hz | hz
  · exact h₁ z hz
  · exact h₂ z hz

/-- The set_invisible analogue of `set_visible_children`. -/
theorem set_invisible_children (x : MElem) :
    x.set_invisible.children = x.children ∨
      x.set_invisible.children = x.children ++ [visMarker] := by
  unfold MElem.set_invisible
  split
  · exact Or.inl rfl
  · split
    · right
      cases x; rfl
    · exact Or.inl rfl

mutual
/-- The bulk reveal makes every node of an unlocked, well-formed subtree
visible. -/
theorem allVisible_sva (x : MElem) (h : x.allUnlockedGood = true) :
    x.set_visible_all.allVisible = true := by
  match x with
  | .node t a tx cs lk =>
    have hgy : GoodVis (.node t a tx (MElem.setVisibleAllL cs) lk) := by
      rw [setVisibleAllL_eq_map]
      exact goodVis_map_children set_visible_all_tag set_visible_all_text
        t a tx cs lk (aug_goodVis h)
    have hlk : lk = false := aug_unlocked h
    have hpy : (MElem.node t a tx (MElem.setVisibleAllL cs) lk).is_protected =
        false := hlk
    obtain ⟨_, hvis⟩ := set_visible_result _ hpy hgy
    have hL : MElem.allVisibleL (MElem.setVisibleAllL cs) = true := by
      have hcs : MElem.allUnlockedGoodL cs = true := by
        rw [allUnlockedGood_eq] at h
        simp only [Bool.and_eq_true] at h
        exact h.2
      exact allVisible_svaL cs hcs
    rw [MElem.set_visible_all, allVisible_eq]
    rw [Bool.and_eq_true]
    refine ⟨hvis, ?_⟩
    rcases set_visible_children (.node t a tx (MElem.setVisibleAllL cs) lk)
      with hc | hc <;> rw [hc]
    · exact hL
    · exact allVisibleL_removeFirstTagged hL

theorem allVisible_svaL (l : List MElem) (h : MElem.allUnlockedGoodL l = true) :
    MElem.allVisibleL (MElem.setVisibleAllL l) = true := by
  match l with
  | [] => rfl
  | c :: cs =>
    rw [MElem.allUnlockedGoodL, Bool.and_eq_true] at h
    rw [MElem.setVisibleAllL, MElem.allVisibleL, Bool.and_eq_true]
    exact ⟨allVisible_sva c h.1, allVisible_svaL cs h.2⟩
end

mutual
/-- `set_visible_chord` reveals every chord-frame subelement of an
unlocked, well-formed subtree. -/
theorem chordSubVis_of_aug (x : MElem) (h : x.allUnlockedGood = true) :
    (x.chordSubMap MElem.set_visible).chordSubAllVis = true := by
  match x with
  | .node t a tx cs lk =>
    have hgy : GoodVis (.node t a tx (MElem.chordSubMapL MElem.set_visible cs) lk) := by
      rw [chordSubMapL_eq_map]
      exact goodVis_map_children (chordSubMap_tag set_visible_tag)
        (chordSubMap_text set_visible_tag set_visible_text)
        t a tx cs lk (aug_goodVis h)
    have hcs : MElem.allUnlockedGoodL cs = true := by
      rw [allUnlockedGood_eq] at h
      simp only [Bool.and_eq_true] at h
      exact h.2
    have hL : MElem.chordSubAllVisL (MElem.chordSubMapL MElem.set_visible cs) =
        true := chordSubVis_of_augL cs hcs
    rw [MElem.chordSubMap]
    split
    · rename_i ht
      have hlk : lk = false := aug_unlocked h
      obtain ⟨_, hvis⟩ := set_visible_result _
        (show (MElem.node t a tx (MElem.chordSubMapL MElem.set_visible cs)
          lk).is_protected = false from hlk) hgy
      rw [chordSubAllVis_eq]
      rw [Bool.and_eq_true]
      refine ⟨?_, ?_⟩
      · rw [set_visible_tag]
        show (if CHORD_SUB.contains t then _ else true) = true
        rw [if_pos ht]
        exact hvis
      · rcases set_visible_children
            (.node t a tx (MElem.chordSubMapL MElem.set_visible cs) lk)
          with hc | hc <;> rw [hc]
        · exact hL
        · exact chordSubAllVisL_removeFirstTagged hL
    · rename_i ht
      rw [chordSubAllVis_eq]
      rw [Bool.and_eq_true]
      refine ⟨?_, hL⟩
      show (if CHORD_SUB.contains t then _ else true) = true
      rw [if_neg ht]

theorem chordSubVis_of_augL (l : List MElem)
    (h : MElem.allUnlockedGoodL l = true) :
    MElem.chordSubAllVisL (MElem.chordSubMapL MElem.set_visible l) = true := by
  match l with
  | [] => rfl
  | c :: cs =>
    rw [MElem.allUnlockedGoodL, Bool.and_eq_true] at h
    rw [MElem.chordSubMapL, MElem.chordSubAllVisL, Bool.and_eq_true]
    exact ⟨chordSubVis_of_aug c h.1, chordSubVis_of_augL cs h.2⟩
end

mutual
/-- `set_invisible_chord` hides every chord-frame subelement of an
unlocked, well-formed subtree. -/
theorem chordSubInvis_of_aug (x : MElem) (h : x.allUnlockedGood = true) :
    (x.chordSubMap MElem.set_invisible).chordSubAllInvis = true := by
  match x with
  | .node t a tx cs lk =>
    have hgy : GoodVis (.node t a tx (MElem.chordSubMapL MElem.set_invisible cs) lk) := by
      rw [chordSubMapL_eq_map]
      exact goodVis_map_children (chordSubMap_tag set_invisible_tag)
        (chordSubMap_text set_invisible_tag set_invisible_text)
        t a tx cs lk (aug_goodVis h)
    have hcs : MElem.allUnlockedGoodL cs = true := by
      rw [allUnlockedGood_eq] at h
      simp only [Bool.and_eq_true] at h
      exact h.2
    have hL : MElem.chordSubAllInvisL
        (MElem.chordSubMapL MElem.set_invisible cs) = true :=
      chordSubInvis_of_augL cs hcs
    rw [MElem.chordSubMap]
    split
    · rename_i ht
      have hlk : lk = false := aug_unlocked h
      obtain ⟨_, hvis⟩ := set_invisible_result _
        (show (MElem.node t a tx (MElem.chordSubMapL MElem.set_invisible cs)
          lk).is_protected = false from hlk) hgy
      rw [chordSubAllInvis_eq]
      rw [Bool.and_eq_true]
      refine ⟨?_, ?_⟩
      · rw [set_invisible_tag]
        show (if CHORD_SUB.contains t then _ else true) = true
        rw [if_pos ht, hvis]
        rfl
      · rcases set_invisible_children
            (.node t a tx (MElem.chordSubMapL MElem.set_invisible cs) lk)
          with hc | hc <;> rw [hc]
        · exact hL
        · exact chordSubAllInvisL_append hL (by rfl)
    · rename_i ht
      rw [chordSubAllInvis_eq]
      rw [Bool.and_eq_true]
      refine ⟨?_, hL⟩
      show (if CHORD_SUB.contains t then _ else true) = true
      rw [if_neg ht]

theorem chordSubInvis_of_augL (l : List MElem)
    (h : MElem.allUnlockedGoodL l = true) :
    MElem.chordSubAllInvisL (MElem.chordSubMapL MElem.set_invisible l) = true := by
  match l with
  | [] => rfl
  | c :: cs =>
    rw [MElem.allUnlockedGoodL, Bool.and_eq_true] at h
    rw [MElem.chordSubMapL, MElem.chordSubAllInvisL, Bool.and_eq_true]
    exact ⟨chordSubInvis_of_aug c h.1, chordSubInvis_of_augL cs h.2⟩
end

theorem updFirstTagged_tag (x : MElem) (t : String) (f : MElem → MElem) :
    (x.updFirstTagged t f).tag = x.tag := by
  cases x; rfl

theorem updFirstTaggedL_mem {t : String} {f : MElem → MElem} {cs : List MElem}
    {c' : MElem} (h : c' ∈ updFirstTaggedL t f cs) :
    c' ∈ cs ∨ ∃ c ∈ cs, c' = f c := by
  induction cs with
  | nil => simp [updFirstTaggedL] at h
  | cons c cs ih =>
    rw [updFirstTaggedL] at h
    by_cases hc : (c.tag == t) = true
    · rw [if_pos hc] at h
      rcases List.mem_cons.mp h with rfl | h
      · exact Or.inr ⟨c, List.mem_cons_self c cs, rfl⟩
      · exact Or.inl (List.mem_cons_of_mem c h)
    · rw [if_neg hc] at h
      rcases List.mem_cons.mp h with rfl | h
      · exact Or.inl (List.mem_cons_self c' cs)
      · rcases ih h with h | ⟨c0, hc0, rfl⟩
        · exact Or.inl (List.mem_cons_of_mem c h)
        · exact Or.inr ⟨c0, List.mem_cons_of_mem c hc0, rfl⟩

theorem countP_updFirstTaggedL {t t' : String} {f : MElem → MElem}
    (hf : ∀ y, (f y).tag = y.tag) (cs : List MElem) :
    (updFirstTaggedL t f cs).countP (fun c => c.tag == t') =
      cs.countP (fun c => c.tag == t') := by
  induction cs with
  | nil => rfl
  | cons c cs ih =>
    rw [updFirstTaggedL]
    by_cases hc : (c.tag == t) = true
    · rw [if_pos hc, List.countP_cons, List.countP_cons, hf]
    · rw [if_neg hc, List.countP_cons, List.countP_cons, ih]

theorem find?_updFirstTaggedL {t : String} {f : MElem → MElem}
    (hf : ∀ y, (f y).tag = y.tag) (cs : List MElem) :
    (updFirstTaggedL t f cs).find? (fun c => c.tag == t) =
      (cs.find? (fun c => c.tag == t)).map f := by
  induction cs with
  | nil => rfl
  | cons c cs ih =>
    rw [updFirstTaggedL]
    by_cases hc : (c.tag == t) = true
    · rw [if_pos hc]
      simp only [List.find?_cons, hf c, hc]
      rfl
    · have hcf : (c.tag == t) = false := by simpa using hc
      rw [if_neg hc]
      simp only [List.find?_cons, hcf]
      exact ih

theorem find_updFirstTagged {t : String} {f : MElem → MElem}
    (hf : ∀ y, (f y).tag = y.tag) (x : MElem) :
    (x.updFirstTagged t f).find t = (x.find t).map f := by
  cases x with
  | node t0 a tx cs lk =>
    show (updFirstTaggedL t f cs).find? _ = _
    exact find?_updFirstTaggedL hf cs

/-- `set_visible` keeps a subtree unlocked and well-formed. -/
theorem aug_set_visible (x : MElem) (h : x.allUnlockedGood = true) :
    x.set_visible.allUnlockedGood = true := by
  have hgv := (set_visible_result x (aug_unlocked h) (aug_goodVis h)).1
  rw [allUnlockedGood_eq, Bool.and_eq_true, Bool.and_eq_true]
  refine ⟨⟨?_, by simpa using hgv⟩, ?_⟩
  · have := set_visible_protected_eq x
    rw [aug_unlocked h] at this
    simp [MElem.is_protected] at this
    simp [this]
  · rw [allUnlockedGoodL_all, List.all_eq_true]
    intro c hc
    have hsub : c ∈ x.children := by
      rcases set_visible_children x with hcc | hcc
      · rw [hcc] at hc
        exact hc
      · rw [hcc] at hc
        exact removeFirstTagged_subset hc
    exact aug_children h c hsub

/-- Revealing the tremolo glyph (`tremolo.set_visible()`) keeps the chord
subtree unlocked and well-formed. -/
theorem aug_updFirstTagged_sv (x : MElem)
    (h : x.allUnlockedGood = true) :
    (x.updFirstTagged "Tremolo" MElem.set_visible).allUnlockedGood = true := by
  cases x with
  | node t a tx cs lk =>
    have hgv := aug_goodVis h
    rw [allUnlockedGood_eq, Bool.and_eq_true, Bool.and_eq_true]
    refine ⟨⟨?_, ?_⟩, ?_⟩
    · have hlk : lk = false := aug_unlocked h
      simp [MElem.updFirstTagged, MElem.withChildren, MElem.visibility_locked,
        hlk]
    · rw [decide_eq_true_eq]
      constructor
      · intro c hc hct
        have hc' : c ∈ updFirstTaggedL "Tremolo" MElem.set_visible cs := by
          simpa [MElem.updFirstTagged, MElem.withChildren, MElem.children]
            using hc
        rcases updFirstTaggedL_mem hc' with hmem | ⟨c0, hc0, rfl⟩
        · exact hgv.1 c hmem hct
        · rw [set_visible_text]
          exact hgv.1 c0 hc0 (by rw [set_visible_tag] at hct; exact hct)
      · show MElem.markerCount _ ≤ 1
        unfold MElem.markerCount
        have : (MElem.node t a tx cs lk).updFirstTagged "Tremolo"
            MElem.set_visible = .node t a tx
              (updFirstTaggedL "Tremolo" MElem.set_visible cs) lk := rfl
        rw [this]
        show (updFirstTaggedL "Tremolo" MElem.set_visible cs).countP _ ≤ 1
        rw [countP_updFirstTaggedL set_visible_tag]
        exact hgv.2
    · rw [allUnlockedGoodL_all, List.all_eq_true]
      intro c hc
      have hc' : c ∈ updFirstTaggedL "Tremolo" MElem.set_visible cs := by
        simpa [MElem.updFirstTagged, MElem.withChildren, MElem.children]
          using hc
      rcases updFirstTaggedL_mem hc' with hmem | ⟨c0, hc0, rfl⟩
      · exact aug_children h c hmem
      · exact aug_set_visible c0 (aug_children h c0 hc0)

theorem chordSubMap_find_of_not_tagged {f : MElem → MElem}
    (hf : ∀ y, (f y).tag = y.tag) (x : MElem)
    (hx : CHORD_SUB.contains x.tag = false) (t' : String) :
    (x.chordSubMap f).find t' = (x.find t').map (MElem.chordSubMap f) := by
  cases x with
  | node t a tx cs lk =>
    rw [MElem.chordSubMap]
    rw [if_neg (by simpa using hx)]
    show (MElem.chordSubMapL f cs).find? _ = _
    rw [chordSubMapL_eq_map, find?_map_tag_preserving (chordSubMap_tag hf)]
    rfl

theorem is_visible_chordSubMap_of_not_tagged {f : MElem → MElem}
    (hf : ∀ y, (f y).tag = y.tag) (hft : ∀ y, (f y).text = y.text)
    (x : MElem) (hx : CHORD_SUB.contains x.tag = false) :
    (x.chordSubMap f).is_visible = x.is_visible := by
  unfold MElem.is_visible MElem._is_visible
  rw [chordSubMap_find_of_not_tagged hf x hx]
  cases x.find "visible" with
  | none => rfl
  | some m =>
    show (some (m.chordSubMap f),
      ((m.chordSubMap f).text != some "0")).2 = _
    rw [chordSubMap_text hf hft]

theorem set_visible_chord_of_chord (x : MElem) (h : x.tag = "Chord") :
    x.set_visible_chord? = some (x.chordSubMap MElem.set_visible) := by
  unfold MElem.set_visible_chord?
  rw [if_pos h]

theorem set_invisible_chord_of_chord (x : MElem) (h : x.tag = "Chord") :
    x.set_invisible_chord? = some (x.chordSubMap MElem.set_invisible) := by
  unfold MElem.set_invisible_chord?
  rw [if_pos h]

/-- C2: for a `c`-class tremolo of stroke Duration Value `d` on a chord
straddling it and the next chord, with cursor `duration` before the pair
and the pair last audible for the cutoff: if `d.value` reaches the
requested resolution within 0.01, the tremolo glyph is revealed and —
exactly when `((maxDuration − cursor) mod 2d)/d < 1` — the first chord's
chord-frame subelements are all shown while the second chord's are all
hidden, with the roles swapped otherwise; if `d.value` is below the
resolution, the following chord is revealed in full. -/
theorem c2_tremolo_alternation
    (cs : List MElem) (element trem next : MElem) (i j : ℕ)
    (duration duration_type chord_duration max_duration : ℚ)
    (ntei : Option ℕ) (max_tremolo d : Note)
    (hel : cs.get? i = some element)
    (hctag : element.tag = "Chord")
    (htrem : element.find "Tremolo" = some trem)
    (hsub : trem.tremolo_subtype? duration_type = some ('c', d))
    (hnext : MElem.get_next_chord (.node "voice" [] none cs false) i =
      .ok (some (next, j)))
    (hlast : last_element_in_measure (duration + chord_duration)
      max_duration = true)
    (haugE : element.allUnlockedGood = true)
    (haugN : next.allUnlockedGood = true) :
    ∃ cs', visibilizeTremolo "voice" cs element i duration duration_type
        chord_duration ntei max_duration max_tremolo = some (cs', some j) ∧
      (d.value ≥ max_tremolo.value - 1/100 →
        ∃ el', cs'.get? i = some el' ∧
          (∃ trm', el'.find "Tremolo" = some trm' ∧ trm'.is_visible = true) ∧
          (pyMod (max_duration - duration) (2 * d.value) / d.value < 1 →
            el'.chordSubAllVis = true ∧
            ∃ nx', cs'.get? j = some nx' ∧ nx'.chordSubAllInvis = true) ∧
          (¬ pyMod (max_duration - duration) (2 * d.value) / d.value < 1 →
            el'.chordSubAllInvis = true ∧
            ∃ nx', cs'.get? j = some nx' ∧ nx'.chordSubAllVis = true)) ∧
      (¬ d.value ≥ max_tremolo.value - 1/100 →
        ∃ nx', cs'.get? j = some nx' ∧ nx'.allVisible = true) := by
  -- facts about the following chord
  have hgnc : gncAux (cs.drop (i + 1)) (i + 1) = some (next, j) := by
    unfold MElem.get_next_chord at hnext
    rw [if_neg (by simp [MElem.tag])] at hnext
    exact Except.ok.inj hnext
  obtain ⟨r, hjr, hgetr, hntag, -⟩ :=
    ((gncAux_spec (cs.drop (i + 1)) (i + 1)).1 next j).mp hgnc
  have hij : i < j := by omega
  have hgetj : cs.get? j = some next := by
    rw [List.get?_drop] at hgetr
    rw [hjr]
    exact hgetr
  have hjlen : j < cs.length := by
    by_contra hcon
    rw [List.get?_eq_none.mpr (by omega)] at hgetj
    cases hgetj
  have hilen : i < cs.length := by
    by_contra hcon
    rw [List.get?_eq_none.mpr (by omega)] at hel
    cases hel
  have hne : i ≠ j := by omega
  -- the tremolo child and its wellformedness
  have htrtag : trem.tag = "Tremolo" := by
    simpa using List.find?_some htrem
  have haugT : trem.allUnlockedGood = true :=
    aug_children haugE trem (List.mem_of_find?_eq_some htrem)
  have hel2tag : (element.updFirstTagged "Tremolo" MElem.set_visible).tag =
      "Chord" := by rw [updFirstTagged_tag]; exact hctag
  by_cases hres : d.value ≥ max_tremolo.value - 1/100
  · -- the revealed glyph, seen through either chord-frame pass
    have hfindg : ∀ g : MElem → MElem, (∀ y, (g y).tag = y.tag) →
        ((element.updFirstTagged "Tremolo" MElem.set_visible).chordSubMap
          g).find "Tremolo" = some ((trem.set_visible).chordSubMap g) := by
      intro g hg
      rw [chordSubMap_find_of_not_tagged hg _ (by rw [hel2tag]; decide)
        "Tremolo"]
      rw [find_updFirstTagged set_visible_tag element, htrem]
      rfl
    have hvisg : ∀ g : MElem → MElem, (∀ y, (g y).tag = y.tag) →
        (∀ y, (g y).text = y.text) →
        ((trem.set_visible).chordSubMap g).is_visible = true := by
      intro g hg hgt
      rw [is_visible_chordSubMap_of_not_tagged hg hgt _
        (by rw [set_visible_tag, htrtag]; decide)]
      exact (set_visible_result trem (aug_unlocked haugT)
        (aug_goodVis haugT)).2
    by_cases hmod : pyMod (max_duration - duration) (2 * d.value) /
        d.value < 1
    · have hcomp : visibilizeTremolo "voice" cs element i duration
          duration_type chord_duration ntei max_duration max_tremolo =
          some ((cs.set i ((element.updFirstTagged "Tremolo"
              MElem.set_visible).chordSubMap MElem.set_visible)).set j
            (next.chordSubMap MElem.set_invisible), some j) := by
        simp only [visibilizeTremolo, htrem, hsub, hnext, hlast, hres, hmod,
          set_visible_chord_of_chord _ hel2tag,
          set_invisible_chord_of_chord next hntag]
        simp
      refine ⟨_, hcomp, ?_, ?_⟩
      · intro _
        refine ⟨(element.updFirstTagged "Tremolo"
            MElem.set_visible).chordSubMap MElem.set_visible, ?_, ?_, ?_, ?_⟩
        · rw [get?_set_other _ j i _ (by omega)]
          exact get?_set_self_of_lt cs i _ hilen
        · exact ⟨_, hfindg _ set_visible_tag,
            hvisg _ set_visible_tag set_visible_text⟩
        · intro _
          refine ⟨chordSubVis_of_aug _ (aug_updFirstTagged_sv element haugE),
            next.chordSubMap MElem.set_invisible, ?_,
            chordSubInvis_of_aug next haugN⟩
          exact get?_set_self_of_lt _ j _ (by simpa using hjlen)
        · intro hmod'
          exact absurd hmod hmod'
      · intro hres'
        exact absurd hres hres'
    · have hcomp : visibilizeTremolo "voice" cs element i duration
          duration_type chord_duration ntei max_duration max_tremolo =
          some ((cs.set i ((element.updFirstTagged "Tremolo"
              MElem.set_visible).chordSubMap MElem.set_invisible)).set j
            (next.chordSubMap MElem.set_visible), some j) := by
        simp only [visibilizeTremolo, htrem, hsub, hnext, hlast, hres, hmod,
          set_invisible_chord_of_chord _ hel2tag,
          set_visible_chord_of_chord next hntag]
        simp
      refine ⟨_, hcomp, ?_, ?_⟩
      · intro _
        refine ⟨(element.updFirstTagged "Tremolo"
            MElem.set_visible).chordSubMap MElem.set_invisible, ?_, ?_, ?_, ?_⟩
        · rw [get?_set_other _ j i _ (by omega)]
          exact get?_set_self_of_lt cs i _ hilen
        · exact ⟨_, hfindg _ set_invisible_tag,
            hvisg _ set_invisible_tag set_invisible_text⟩
        · intro hmod'
          exact absurd hmod' hmod
        · intro _
          refine ⟨chordSubInvis_of_aug _ (aug_updFirstTagged_sv element haugE),
            next.chordSubMap MElem.set_visible, ?_,
            chordSubVis_of_aug next haugN⟩
          exact get?_set_self_of_lt _ j _ (by simpa using hjlen)
      · intro hres'
        exact absurd hres hres'
  · -- stroke below resolution: the whole next chord is revealed
    have hcomp : visibilizeTremolo "voice" cs element i duration
        duration_type chord_duration ntei max_duration max_tremolo =
        some (cs.set j next.set_visible_all, some j) := by
      simp only [visibilizeTremolo, htrem, hsub, hnext, hlast, hres]
      simp
    refine ⟨cs.set j next.set_visible_all, hcomp, ?_, ?_⟩
    · intro hres'
      exact absurd hres' hres
    · intro _
      refine ⟨next.set_visible_all, ?_, allVisible_sva next haugN⟩
      exact get?_set_self_of_lt cs j _ hjlen

/-- A between-chord tremolo marking `<Tremolo><subtype>c16</subtype></Tremolo>`. -/
def c2Trem : MElem :=
  .node "Tremolo" [] none [.node "subtype" [] (some "c16") [] false] false

/-- First chord of the tremolo pair: a half note carrying the tremolo and
one notehead. -/
def c2El : MElem :=
  .node "Chord" [] none
    [.node "durationType" [] (some "half") [] false, c2Trem,
     .node "Note" [] none [] false] false

/-- Second chord of the tremolo pair. -/
def c2Next : MElem :=
  .node "Chord" [] none
    [.node "durationType" [] (some "half") [] false,
     .node "Note" [] none [] false] false

/-- C2 witness: the alternation law at the concrete pair, cutoff 256,
cursor 0; the stroke value is 64 ≥ 32 − 0.01 and
`((256 − 0) mod 128)/64 = 0 < 1`, so the first chord shows its frame and
the second hides it. -/
theorem c2_witness :
    ∃ cs', visibilizeTremolo "voice" [c2El, c2Next] c2El 0 0 512 512 none
        256 ⟨32⟩ = some (cs', some 1) ∧
      ((64 : ℚ) ≥ (32 : ℚ) - 1/100 →
        ∃ el', cs'.get? 0 = some el' ∧
          (∃ trm', el'.find "Tremolo" = some trm' ∧ trm'.is_visible = true) ∧
          (pyMod (256 - 0) (2 * (64 : ℚ)) / (64 : ℚ) < 1 →
            el'.chordSubAllVis = true ∧
            ∃ nx', cs'.get? 1 = some nx' ∧ nx'.chordSubAllInvis = true) ∧
          (¬ pyMod (256 - 0) (2 * (64 : ℚ)) / (64 : ℚ) < 1 →
            el'.chordSubAllInvis = true ∧
            ∃ nx', cs'.get? 1 = some nx' ∧ nx'.chordSubAllVis = true)) ∧
      (¬ (64 : ℚ) ≥ (32 : ℚ) - 1/100 →
        ∃ nx', cs'.get? 1 = some nx' ∧ nx'.allVisible = true) := by
  have hsub : c2Trem.tremolo_subtype? 512 = some ('c', ⟨64⟩) := by
    have h1 : pyInt? ("c16".drop 1) = some 16 := by decide
    have h2 : "c16".toList.head? = some 'c' := by decide
    have h3 : max (1 : ℚ) ((1024 / 4) / 512) = 1 := by
      rw [max_eq_left]
      norm_num
    simp only [MElem.tremolo_subtype?,
      show c2Trem.tag = "Tremolo" from rfl,
      show c2Trem.find "subtype" =
        some (.node "subtype" [] (some "c16") [] false) from rfl,
      show (MElem.node "subtype" [] (some "c16") [] false).text =
        some "c16" from rfl, h1, h2, h3]
    norm_num [Note.ofType?]
  exact c2_tremolo_alternation [c2El, c2Next] c2El c2Trem c2Next 0 1
    0 512 512 256 none ⟨32⟩ ⟨64⟩ rfl rfl rfl hsub rfl
    (by simp only [last_element_in_measure, decide_eq_true_eq]; norm_num)
    (by decide) (by decide)

/-! ### animate.py — the Frame Sequencer (`Amusing._get_trees`) -/

/-- One voice of `Amusing._visibilize_measure`: run the scan over the
voice's children (the warning on a non-`voice` tag does not stop the
processing). -/
def processVoice (ts maxDur : ℚ) (mt : Note) (voice : MElem) : Option MElem :=
  match visibilizeVoiceLoop voice.tag ts maxDur mt voice.children 0 0 1 none with
  | none => none
  | some (cs', _) => some (voice.withChildren cs')

/-- The measure-children loop of `Amusing._visibilize_measure`:
unprintable children are skipped, every other child is scanned as a
voice. -/
def visibilizeMeasureChildren (ts maxDur : ℚ) (mt : Note) :
    List MElem → Option (List MElem)
  | [] => some []
  | v :: vs =>
    if v.is_unprintable then
      match visibilizeMeasureChildren ts maxDur mt vs with
      | none => none
      | some vs' => some (v :: vs')
    else
      match processVoice ts maxDur mt v with
      | none => none
      | some v' =>
        match visibilizeMeasureChildren ts maxDur mt vs with
        | none => none
        | some vs' => some (v' :: vs')

/-- `Amusing._visibilize_measure` over the per-staff measures of one
measure row. -/
def visibilize_measure (ts maxDur : ℚ) (mt : Note) :
    List MElem → Option (List MElem)
  | [] => some []
  | m :: ms =>
    match visibilizeMeasureChildren ts maxDur mt m.children with
    | none => none
    | some cs' =>
      match visibilize_measure ts maxDur mt ms with
      | none => none
      | some ms' => some (m.withChildren cs' :: ms')

/-- The page-break detector of `_get_trees` over one measure's direct
children: stops at the first `LayoutBreak` whose `subtype` text is
`page`; `none` models the `AttributeError` on a `LayoutBreak` without a
`subtype` child. -/
def scanLayoutBreak : List MElem → Option Bool
  | [] => some false
  | v :: vs =>
    if v.tag = "LayoutBreak" then
      match v.find "subtype" with
      | none => none
      | some st =>
        if st.text = some "page" then some true else scanLayoutBreak vs
    else scanLayoutBreak vs

/-- Page-break detection over all measures of a row (the inner `break`
only ends one measure's scan; every measure of the row is examined). -/
def detectNewpageRow : List MElem → Option Bool
  | [] => some false
  | m :: ms =>
    match scanLayoutBreak m.children with
    | none => none
    | some b =>
      match detectNewpageRow ms with
      | none => none
      | some b' => some (b || b')

/-- The measure row at index `m`: one measure per staff (`zip(*staves)`
guarantees `m` is within every staff when it is below the zip length). -/
def rowOf (staves : List (List MElem)) (m : ℕ) : List MElem :=
  staves.map (fun s => s.getD m default)

/-- Write a processed row back, staff by staff. -/
def setRow (staves : List (List MElem)) (m : ℕ) (ms : List MElem) :
    List (List MElem) :=
  (staves.zip ms).map (fun p => p.1.set m p.2)

/-- Number of measure rows `zip(*staves)` yields: the least staff length
(0 for no staves). -/
def rowsCount (staves : List (List MElem)) : ℕ :=
  ((staves.map List.length).min?).getD 0

/-- The per-cutoff loop of a job: one visibility pass and one yielded
snapshot per cutoff, on the live (mutating) staves. -/
def processJobCutoffs (ts : ℚ) (mt : Note) (m : ℕ) (page : ℕ) :
    List ℚ → List (List MElem) →
    Option (List (ℕ × List (List MElem)) × List (List MElem))
  | [], staves => some ([], staves)
  | cutoff :: rest, staves =>
    match visibilize_measure ts cutoff mt (rowOf staves m) with
    | none => none
    | some ms' =>
      match processJobCutoffs ts mt m page rest (setRow staves m ms') with
      | none => none
      | some (fs, staves'') =>
        some ((page, setRow staves m ms') :: fs, staves'')

/-- One measure row of `_get_trees`: detect a page break, animate the row
if it is a job (then reset it fully visible) or reset it directly, and
finally advance the page (with one extra yield) if a break was seen. -/
def processRow (jobs : ℕ → Option Note) (timesigs : ℕ → ℚ) (mt : Note)
    (m : ℕ) (page : ℕ) (staves : List (List MElem)) :
    Option (List (ℕ × List (List MElem)) × ℕ × List (List MElem)) :=
  match detectNewpageRow (rowOf staves m) with
  | none => none
  | some np =>
    match
      (match jobs m with
        | some subdivision =>
          if pyRound (timesigs m / subdivision.value) < 0 then none
          else
            match processJobCutoffs (timesigs m) mt m page
                (linspace 0 (timesigs m)
                  (pyRound (timesigs m / subdivision.value)).toNat) staves with
            | none => none
            | some (fs, st') =>
              some (fs, setRow st' m ((rowOf st' m).map MElem.set_visible_all))
        | none =>
          some ([], setRow staves m ((rowOf staves m).map MElem.set_visible_all)))
    with
    | none => none
    | some (fs1, staves1) =>
      if np then some (fs1 ++ [(page + 1, staves1)], page + 1, staves1)
      else some (fs1, page, staves1)

/-- The row loop of `_get_trees` over the listed measure rows. -/
def rowsLoop (jobs : ℕ → Option Note) (timesigs : ℕ → ℚ) (mt : Note) :
    List ℕ → ℕ → List (List MElem) →
    Option (List (ℕ × List (List MElem)) × ℕ × List (List MElem))
  | [], page, staves => some ([], page, staves)
  | m :: ms, page, staves =>
    match processRow jobs timesigs mt m page staves with
    | none => none
    | some (fs, page', staves') =>
      match rowsLoop jobs timesigs mt ms page' staves' with
      | none => none
      | some (fs2, page'', staves'') => some (fs ++ fs2, page'', staves'')

/-- The end barline `_get_trees` appends to a staff's last measure. -/
def endBarline : MElem :=
  let barline := MElem.new_element "BarLine" none true
  barline.withChildren (barline.children ++
    [MElem.new_element "subtype" (some "end") true])

/-- The final pass of `_get_trees` on one staff: append an end barline to
the last measure when none is present; `none` models the `IndexError` of
`staff[-1]` on an empty staff. -/
def closeStaff (s : List MElem) : Option (List MElem) :=
  match s.getLast? with
  | none => none
  | some last =>
    if last.contains "BarLine" then some s
    else
      some (s.set (s.length - 1)
        (last.withChildren (last.children ++ [endBarline])))

def closeBarlines : List (List MElem) → Option (List (List MElem))
  | [] => some []
  | s :: ss =>
    match closeStaff s with
    | none => none
    | some s' =>
      match closeBarlines ss with
      | none => none
      | some ss' => some (s' :: ss')

/-- `Amusing._get_trees`, as the finite list of (page, snapshot) yields:
the optional first empty frame, the per-row frames, and the final frame
after the barline pass. The snapshot state is the per-staff measure
lists (`[staff.findall('Measure') for staff in ...]`), which is the only
part of the document the generator reads or mutates before a yield. -/
def get_trees (staves : List (List MElem)) (jobs : ℕ → Option Note)
    (timesigs : ℕ → ℚ) (max_tremolo : Note) (first_empty_frame : Bool) :
    Option (List (ℕ × List (List MElem))) :=
  match rowsLoop jobs timesigs max_tremolo (List.range (rowsCount staves))
      1 staves with
  | none => none
  | some (fs, page, staves') =>
    match closeBarlines staves' with
    | none => none
    | some staves'' =>
      some ((if first_empty_frame then [(1, staves)] else []) ++ fs ++
        [(page, staves'')])

/-! ### Claim C3 — frame count and cutoff schedule of a job -/

theorem processJobCutoffs_spec (ts : ℚ) (mt : Note) (m : ℕ) (page : ℕ) :
    ∀ (cutoffs : List ℚ) (staves : List (List MElem))
      (fs : List (ℕ × List (List MElem))) (st' : List (List MElem)),
      processJobCutoffs ts mt m page cutoffs staves = some (fs, st') →
      fs.length = cutoffs.length ∧ ∀ f ∈ fs, f.1 = page := by
  intro cutoffs
  induction cutoffs with
  | nil =>
    intro staves fs st' h
    rw [processJobCutoffs] at h
    simp only [Option.some.injEq, Prod.mk.injEq] at h
    obtain ⟨rfl, rfl⟩ := h
    exact ⟨rfl, by simp⟩
  | cons c rest ih =>
    intro staves fs st' h
    rw [processJobCutoffs] at h
    cases hv : visibilize_measure ts c mt (rowOf staves m) with
    | none =>
      simp only [hv] at h
      exact Option.noConfusion h
    | some ms' =>
      simp only [hv] at h
      cases hp : processJobCutoffs ts mt m page rest (setRow staves m ms') with
      | none =>
        simp only [hp] at h
        exact Option.noConfusion h
      | some p =>
        obtain ⟨fs2, st2⟩ := p
        simp only [hp, Option.some.injEq, Prod.mk.injEq] at h
        obtain ⟨rfl, rfl⟩ := h
        obtain ⟨hlen, hpage⟩ := ih _ _ _ hp
        refine ⟨by simp [hlen], ?_⟩
        intro f hf
        rcases List.mem_cons.mp hf with rfl | hf
        · rfl
        · exact hpage f hf

theorem linspace_length (start stop : ℚ) (n : ℕ) :
    (linspace start stop n).length = n := by
  simp [linspace]

theorem linspace_get (start stop : ℚ) (n i : ℕ) (h : i < n) :
    (linspace start stop n).get? i =
      some (start + i * ((stop - start) / n)) := by
  unfold linspace
  rw [List.get?_map, List.get?_range h]
  rfl

/-- C3: a job on a measure with time signature `T` and subdivision `S`
yields exactly `round(T/S)` snapshots (Python's banker's rounding), one
per cutoff, all on the current page, and the cutoffs are the
equally-spaced points `i·T/n` of the half-open range `[0, T)`. -/
theorem c3_frame_count_and_cutoffs (jobs : ℕ → Option Note)
    (timesigs : ℕ → ℚ) (mt : Note) (m : ℕ) (page : ℕ)
    (staves : List (List MElem)) (S : Note)
    (fs : List (ℕ × List (List MElem))) (page' : ℕ)
    (st' : List (List MElem))
    (hjob : jobs m = some S)
    (hnp : detectNewpageRow (rowOf staves m) = some false)
    (hrun : processRow jobs timesigs mt m page staves = some (fs, page', st')) :
    fs.length = (pyRound (timesigs m / S.value)).toNat ∧
    page' = page ∧
    (∀ f ∈ fs, f.1 = page) ∧
    (linspace 0 (timesigs m) (pyRound (timesigs m / S.value)).toNat).length =
      (pyRound (timesigs m / S.value)).toNat ∧
    (∀ i, i < (pyRound (timesigs m / S.value)).toNat →
      (linspace 0 (timesigs m) (pyRound (timesigs m / S.value)).toNat).get? i =
        some ((i : ℚ) * (timesigs m /
          ((pyRound (timesigs m / S.value)).toNat : ℚ)))) ∧
    (0 < timesigs m → ∀ i, i < (pyRound (timesigs m / S.value)).toNat →
      0 ≤ (i : ℚ) * (timesigs m /
          ((pyRound (timesigs m / S.value)).toNat : ℚ)) ∧
        (i : ℚ) * (timesigs m /
          ((pyRound (timesigs m / S.value)).toNat : ℚ)) < timesigs m) := by
  unfold processRow at hrun
  simp only [hnp, hjob] at hrun
  by_cases hneg : pyRound (timesigs m / S.value) < 0
  · simp only [if_pos hneg] at hrun
    exact Option.noConfusion hrun
  · simp only [if_neg hneg] at hrun
    cases hpjc : processJobCutoffs (timesigs m) mt m page
        (linspace 0 (timesigs m) (pyRound (timesigs m / S.value)).toNat)
        staves with
    | none =>
      simp only [hpjc] at hrun
      exact Option.noConfusion hrun
    | some p =>
      obtain ⟨fs1, st1⟩ := p
      simp only [hpjc, Bool.false_eq_true, if_false, Option.some.injEq,
        Prod.mk.injEq] at hrun
      obtain ⟨rfl, rfl, rfl⟩ := hrun
      obtain ⟨hlen, hpage⟩ := processJobCutoffs_spec (timesigs m) mt m page
        _ staves fs1 st1 hpjc
      refine ⟨by rw [hlen, linspace_length], rfl, hpage, linspace_length _ _ _,
        ?_, ?_⟩
      · intro i hi
        rw [linspace_get 0 (timesigs m) _ i hi]
        congr 1
        ring
      · intro hts i hi
        have hn : 0 < ((pyRound (timesigs m / S.value)).toNat : ℚ) := by
          have : 0 < (pyRound (timesigs m / S.value)).toNat := by omega
          exact_mod_cast this
        have hstep : 0 < timesigs m /
            ((pyRound (timesigs m / S.value)).toNat : ℚ) :=
          div_pos hts hn
        constructor
        · positivity
        · have hi' : (i : ℚ) < ((pyRound (timesigs m / S.value)).toNat : ℚ) := by
            exact_mod_cast hi
          calc (i : ℚ) * (timesigs m / ((pyRound (timesigs m / S.value)).toNat : ℚ))
              < ((pyRound (timesigs m / S.value)).toNat : ℚ) *
                (timesigs m / ((pyRound (timesigs m / S.value)).toNat : ℚ)) :=
                by exact mul_lt_mul_of_pos_right hi' hstep
            _ = timesigs m := by
                field_simp

/-- An empty (childless) measure for exercising the row machinery. -/
def c3M0 : MElem := .node "Measure" [] none [] true

/-- One job on measure 0, subdivision a quarter note (256 units). -/
def c3Jobs : ℕ → Option Note := fun m => if m = 0 then some ⟨256⟩ else none

/-- A constant 4/4 time signature (1024 units per measure). -/
def c3Ts : ℕ → ℚ := fun _ => 1024

def c3MT : Note := ⟨512⟩

/-- The four frames the job on the empty measure yields. -/
def c3FS : List (ℕ × List (List MElem)) :=
  [(1, [[c3M0]]), (1, [[c3M0]]), (1, [[c3M0]]), (1, [[c3M0]])]

theorem c3_witness :
    c3FS.length = (pyRound (c3Ts 0 / (Note.mk 256).value)).toNat ∧
    (1 : ℕ) = 1 ∧
    (∀ f ∈ c3FS, f.1 = 1) ∧
    (linspace 0 (c3Ts 0) (pyRound (c3Ts 0 / (Note.mk 256).value)).toNat).length =
      (pyRound (c3Ts 0 / (Note.mk 256).value)).toNat ∧
    (∀ i, i < (pyRound (c3Ts 0 / (Note.mk 256).value)).toNat →
      (linspace 0 (c3Ts 0)
          (pyRound (c3Ts 0 / (Note.mk 256).value)).toNat).get? i =
        some ((i : ℚ) * (c3Ts 0 /
          ((pyRound (c3Ts 0 / (Note.mk 256).value)).toNat : ℚ)))) ∧
    (0 < c3Ts 0 → ∀ i, i < (pyRound (c3Ts 0 / (Note.mk 256).value)).toNat →
      0 ≤ (i : ℚ) * (c3Ts 0 /
          ((pyRound (c3Ts 0 / (Note.mk 256).value)).toNat : ℚ)) ∧
        (i : ℚ) * (c3Ts 0 /
          ((pyRound (c3Ts 0 / (Note.mk 256).value)).toNat : ℚ)) < c3Ts 0) := by
  have hpr : pyRound (c3Ts 0 / (Note.mk 256).value) = 4 := by
    show pyRound ((1024 : ℚ) / (256 : ℚ)) = 4
    have h44 : (1024 : ℚ) / 256 = 4 := by norm_num
    have hfl : ⌊(4 : ℚ)⌋ = 4 := by
      rw [show (4 : ℚ) = ((4 : ℤ) : ℚ) by norm_num]
      exact Int.floor_intCast 4
    unfold pyRound
    rw [h44, hfl]
    norm_num
  have hpjcAll : ∀ cutoffs : List ℚ,
      processJobCutoffs 1024 c3MT 0 1 cutoffs [[c3M0]] =
        some (cutoffs.map (fun _ => (1, [[c3M0]])), [[c3M0]]) := by
    intro cutoffs
    induction cutoffs with
    | nil => rfl
    | cons c rest ih =>
      rw [processJobCutoffs]
      have hv : visibilize_measure 1024 c c3MT (rowOf [[c3M0]] 0) =
          some [c3M0] := rfl
      simp only [hv]
      have hsr : setRow [[c3M0]] 0 [c3M0] = [[c3M0]] := rfl
      rw [hsr]
      simp only [ih]
      rfl
  have hpj : processJobCutoffs (c3Ts 0) c3MT 0 1
      (linspace 0 (c3Ts 0) (4 : ℤ).toNat) [[c3M0]] =
      some (c3FS, [[c3M0]]) := by
    have h := hpjcAll (linspace 0 (c3Ts 0) (4 : ℤ).toNat)
    exact h.trans (by rfl)
  have hrun : processRow c3Jobs c3Ts c3MT 0 1 [[c3M0]] =
      some (c3FS, 1, [[c3M0]]) := by
    unfold processRow
    have hdet : detectNewpageRow (rowOf [[c3M0]] 0) = some false := rfl
    simp only [hdet]
    have hjob : c3Jobs 0 = some (⟨256⟩ : Note) := rfl
    simp only [hjob]
    simp only [hpr]
    have h40 : ¬((4 : ℤ) < 0) := by norm_num
    simp only [if_neg h40]
    simp only [hpj]
    rfl
  exact c3_frame_count_and_cutoffs c3Jobs c3Ts c3MT 0 1 [[c3M0]] ⟨256⟩
    c3FS 1 [[c3M0]] rfl rfl hrun

/-! ### Claim C8 — page numbering of the yielded frames -/

theorem getD_set_other (l : List MElem) (i j : ℕ) (x d : MElem) (h : i ≠ j) :
    (l.set i x).getD j d = l.getD j d := by
  induction l generalizing i j with
  | nil => rfl
  | cons c cs ih =>
    cases i with
    | zero =>
      cases j with
      | zero => exact absurd rfl h
      | succ j' => rfl
    | succ i' =>
      cases j with
      | zero => rfl
      | succ j' => exact ih i' j' (by omega)

theorem rowOf_length (staves : List (List MElem)) (m : ℕ) :
    (rowOf staves m).length = staves.length := by
  simp [rowOf]

theorem setRow_length (staves : List (List MElem)) (ms : List MElem) (m : ℕ)
    (h : ms.length = staves.length) :
    (setRow staves m ms).length = staves.length := by
  simp [setRow, List.length_zip, h]

/-- Writing a row back never changes what any other row reads. -/
theorem setRow_rowOf_ne :
    ∀ (staves : List (List MElem)) (ms : List MElem) (m m' : ℕ),
      ms.length = staves.length → m' ≠ m →
      rowOf (setRow staves m ms) m' = rowOf staves m' := by
  intro staves
  induction staves with
  | nil => intro ms m m' _ _; rfl
  | cons s ss ih =>
    intro ms m m' hlen hne
    cases ms with
    | nil => simp at hlen
    | cons x xs =>
      show (s.set m x).getD m' default :: rowOf (setRow ss m xs) m' =
        s.getD m' default :: rowOf ss m'
      rw [getD_set_other s m m' x default (Ne.symm hne),
        ih xs m m' (by simpa using hlen) hne]

theorem visibilize_measure_length (ts c : ℚ) (mt : Note) :
    ∀ (l l' : List MElem), visibilize_measure ts c mt l = some l' →
      l'.length = l.length := by
  intro l
  induction l with
  | nil =>
    intro l' h
    rw [visibilize_measure] at h
    simp only [Option.some.injEq] at h
    rw [← h]
  | cons mm ms ih =>
    intro l' h
    rw [visibilize_measure] at h
    cases hc : visibilizeMeasureChildren ts c mt mm.children with
    | none =>
      simp only [hc] at h
      exact Option.noConfusion h
    | some cs' =>
      simp only [hc] at h
      cases hm : visibilize_measure ts c mt ms with
      | none =>
        simp only [hm] at h
        exact Option.noConfusion h
      | some ms' =>
        simp only [hm, Option.some.injEq] at h
        rw [← h]
        simp [ih ms' hm]

/-- The per-cutoff loop of a job only mutates the row it animates. -/
theorem processJobCutoffs_preserve (ts : ℚ) (mt : Note) (m page : ℕ) :
    ∀ (cutoffs : List ℚ) (staves : List (List MElem))
      (fs : List (ℕ × List (List MElem))) (st' : List (List MElem)),
      processJobCutoffs ts mt m page cutoffs staves = some (fs, st') →
      (∀ m', m' ≠ m → rowOf st' m' = rowOf staves m') ∧
      st'.length = staves.length := by
  intro cutoffs
  induction cutoffs with
  | nil =>
    intro staves fs st' h
    rw [processJobCutoffs] at h
    simp only [Option.some.injEq, Prod.mk.injEq] at h
    obtain ⟨-, rfl⟩ := h
    exact ⟨fun _ _ => rfl, rfl⟩
  | cons c rest ih =>
    intro staves fs st' h
    rw [processJobCutoffs] at h
    cases hv : visibilize_measure ts c mt (rowOf staves m) with
    | none =>
      simp only [hv] at h
      exact Option.noConfusion h
    | some ms' =>
      simp only [hv] at h
      cases hp : processJobCutoffs ts mt m page rest (setRow staves m ms') with
      | none =>
        simp only [hp] at h
        exact Option.noConfusion h
      | some p =>
        obtain ⟨fs2, st2⟩ := p
        simp only [hp, Option.some.injEq, Prod.mk.injEq] at h
        obtain ⟨rfl, rfl⟩ := h
        have hml : ms'.length = staves.length := by
          rw [visibilize_measure_length ts c mt _ _ hv, rowOf_length]
        obtain ⟨ih1, ih2⟩ := ih _ _ _ hp
        constructor
        · intro m' hm'
          rw [ih1 m' hm', setRow_rowOf_ne staves ms' m m' hml hm']
        · rw [ih2, setRow_length staves ms' m hml]

/-- One measure row: the page advances by one exactly when a page break
is detected on the row (and the break yield carries the new page),
every other frame of the row keeps the incoming page, and no other row
is touched. -/
theorem processRow_pages (jobs : ℕ → Option Note) (ts : ℕ → ℚ) (mt : Note)
    (m page : ℕ) (staves : List (List MElem))
    (fs : List (ℕ × List (List MElem))) (page' : ℕ)
    (staves' : List (List MElem))
    (h : processRow jobs ts mt m page staves = some (fs, page', staves')) :
    ∃ np : Bool, detectNewpageRow (rowOf staves m) = some np ∧
      page' = (if np then page + 1 else page) ∧
      (∀ f ∈ fs, f.1 = page ∨ f.1 = page') ∧
      (np = true → page' ∈ fs.map Prod.fst) ∧
      (∀ m', m' ≠ m → rowOf staves' m' = rowOf staves m') ∧
      staves'.length = staves.length := by
  unfold processRow at h
  cases hdet : detectNewpageRow (rowOf staves m) with
  | none =>
    simp only [hdet] at h
    exact Option.noConfusion h
  | some np =>
    simp only [hdet] at h
    cases hjb : jobs m with
    | some S =>
      simp only [hjb] at h
      by_cases hneg : pyRound (ts m / S.value) < 0
      · simp only [if_pos hneg] at h
        exact Option.noConfusion h
      · simp only [if_neg hneg] at h
        cases hpjc : processJobCutoffs (ts m) mt m page
            (linspace 0 (ts m) (pyRound (ts m / S.value)).toNat) staves with
        | none =>
          simp only [hpjc] at h
          exact Option.noConfusion h
        | some p =>
          obtain ⟨fs1, st1⟩ := p
          simp only [hpjc] at h
          obtain ⟨-, hpages1⟩ :=
            processJobCutoffs_spec (ts m) mt m page _ staves fs1 st1 hpjc
          obtain ⟨hpres1, hlen1⟩ :=
            processJobCutoffs_preserve (ts m) mt m page _ staves fs1 st1 hpjc
          have hXpres : ∀ m', m' ≠ m →
              rowOf (setRow st1 m
                ((rowOf st1 m).map MElem.set_visible_all)) m' =
              rowOf staves m' := by
            intro m' hm'
            rw [setRow_rowOf_ne st1 _ m m'
              (by rw [List.length_map, rowOf_length]) hm', hpres1 m' hm']
          have hXlen : (setRow st1 m
              ((rowOf st1 m).map MElem.set_visible_all)).length =
              staves.length := by
            rw [setRow_length st1 _ m (by rw [List.length_map, rowOf_length]),
              hlen1]
          cases np with
          | false =>
            simp only [Bool.false_eq_true, if_false, Option.some.injEq,
              Prod.mk.injEq] at h
            obtain ⟨rfl, rfl, rfl⟩ := h
            exact ⟨false, rfl, rfl,
              fun f hf => Or.inl (hpages1 f hf),
              fun hc => absurd hc Bool.false_ne_true, hXpres, hXlen⟩
          | true =>
            simp only [eq_self_iff_true, if_true, Option.some.injEq,
              Prod.mk.injEq] at h
            obtain ⟨rfl, rfl, rfl⟩ := h
            refine ⟨true, rfl, rfl, ?_, ?_, hXpres, hXlen⟩
            · intro f hf
              rcases List.mem_append.mp hf with h1 | h1
              · exact Or.inl (hpages1 f h1)
              · rw [List.mem_singleton.mp h1]
                exact Or.inr rfl
            · intro _
              rw [List.map_append]
              exact List.mem_append_right _ (by simp)
    | none =>
      simp only [hjb] at h
      have hYpres : ∀ m', m' ≠ m →
          rowOf (setRow staves m
            ((rowOf staves m).map MElem.set_visible_all)) m' =
          rowOf staves m' := by
        intro m' hm'
        exact setRow_rowOf_ne staves _ m m'
          (by rw [List.length_map, rowOf_length]) hm'
      have hYlen : (setRow staves m
          ((rowOf staves m).map MElem.set_visible_all)).length =
          staves.length :=
        setRow_length staves _ m (by rw [List.length_map, rowOf_length])
      cases np with
      | false =>
        simp only [Bool.false_eq_true, if_false, Option.some.injEq,
          Prod.mk.injEq] at h
        obtain ⟨rfl, rfl, rfl⟩ := h
        exact ⟨false, rfl, rfl, fun f hf => absurd hf (List.not_mem_nil f),
          fun hc => absurd hc Bool.false_ne_true, hYpres, hYlen⟩
      | true =>
        simp only [eq_self_iff_true, if_true, Option.some.injEq,
          Prod.mk.injEq] at h
        obtain ⟨rfl, rfl, rfl⟩ := h
        refine ⟨true, rfl, rfl, ?_, ?_, hYpres, hYlen⟩
        · intro f hf
          rw [List.nil_append] at hf
          rw [List.mem_singleton.mp hf]
          exact Or.inr rfl
        · intro _
          simp


/-- The number of listed rows on which the detector reports a page
break, read off a fixed staves snapshot. -/
def breakCountL (staves : List (List MElem)) (ms : List ℕ) : ℕ :=
  (ms.filter
    (fun m => decide (detectNewpageRow (rowOf staves m) = some true))).length

theorem breakCountL_congr (staves1 staves : List (List MElem)) (ms : List ℕ)
    (h : ∀ m' ∈ ms, rowOf staves1 m' = rowOf staves m') :
    breakCountL staves1 ms = breakCountL staves ms := by
  unfold breakCountL
  rw [List.filter_congr (fun a ha => by rw [h a ha])]

/-- The row loop: the final page is the initial page plus the number of
break rows, every frame's page lies between the two, every page strictly
between initial and final is carried by some frame, and rows outside the
processed list are untouched. -/
theorem rowsLoop_spec (jobs : ℕ → Option Note) (ts : ℕ → ℚ) (mt : Note) :
    ∀ (ms : List ℕ) (page : ℕ) (staves : List (List MElem))
      (fs : List (ℕ × List (List MElem))) (page_end : ℕ)
      (staves' : List (List MElem)),
      List.Pairwise (fun a b => a ≠ b) ms →
      rowsLoop jobs ts mt ms page staves = some (fs, page_end, staves') →
      page_end = page + breakCountL staves ms ∧
      (∀ f ∈ fs, page ≤ f.1 ∧ f.1 ≤ page_end) ∧
      (∀ p, page < p → p ≤ page_end → p ∈ fs.map Prod.fst) ∧
      (∀ m', m' ∉ ms → rowOf staves' m' = rowOf staves m') ∧
      staves'.length = staves.length := by
  intro ms
  induction ms with
  | nil =>
    intro page staves fs page_end staves' _ h
    rw [rowsLoop] at h
    simp only [Option.some.injEq, Prod.mk.injEq] at h
    obtain ⟨rfl, rfl, rfl⟩ := h
    refine ⟨by simp [breakCountL], by simp, ?_, fun _ _ => rfl, rfl⟩
    intro p hp1 hp2
    exact absurd (hp1.trans_le hp2) (lt_irrefl page)
  | cons m rest ih =>
    intro page staves fs page_end staves' hpw h
    rw [rowsLoop] at h
    obtain ⟨hhead, hrest⟩ := List.pairwise_cons.mp hpw
    cases hpr : processRow jobs ts mt m page staves with
    | none =>
      simp only [hpr] at h
      exact Option.noConfusion h
    | some t =>
      obtain ⟨fsh, page1, staves1⟩ := t
      simp only [hpr] at h
      cases hrl : rowsLoop jobs ts mt rest page1 staves1 with
      | none =>
        simp only [hrl] at h
        exact Option.noConfusion h
      | some t2 =>
        obtain ⟨fs2, page2, staves2⟩ := t2
        simp only [hrl, Option.some.injEq, Prod.mk.injEq] at h
        obtain ⟨rfl, rfl, rfl⟩ := h
        obtain ⟨np, hdet, hpage1, hfsh, hnpmem, hpres1, hlen1⟩ :=
          processRow_pages jobs ts mt m page staves fsh page1 staves1 hpr
        obtain ⟨hpe, hbnd, hcov, hpres2, hlen2⟩ :=
          ih page1 staves1 fs2 page2 staves2 hrest hrl
        have hbcongr : breakCountL staves1 rest = breakCountL staves rest :=
          breakCountL_congr staves1 staves rest
            (fun a ha => hpres1 a (Ne.symm (hhead a ha)))
        have hpresAll : ∀ m', m' ∉ m :: rest →
            rowOf staves2 m' = rowOf staves m' := by
          intro m' hm'
          rw [hpres2 m' (fun hh => hm' (List.mem_cons_of_mem m hh)),
            hpres1 m' (fun he => hm'
              (by rw [he]; exact List.mem_cons_self m rest))]
        have hlenAll : staves2.length = staves.length := hlen2.trans hlen1
        cases np with
        | false =>
          have hpage1' : page1 = page := hpage1
          subst hpage1'
          have hstep : breakCountL staves (m :: rest) =
              breakCountL staves rest := by
            unfold breakCountL
            rw [List.filter_cons]
            simp [hdet]
          refine ⟨?_, ?_, ?_, hpresAll, hlenAll⟩
          · rw [hstep, ← hbcongr]
            exact hpe
          · intro f hf
            rcases List.mem_append.mp hf with h1 | h1
            · rcases hfsh f h1 with h2 | h2 <;> omega
            · obtain ⟨hb1, hb2⟩ := hbnd f h1
              omega
          · intro p hp1 hp2
            rw [List.map_append]
            exact List.mem_append_right _ (hcov p hp1 hp2)
        | true =>
          have hpage1' : page1 = page + 1 := hpage1
          subst hpage1'
          have hstep : breakCountL staves (m :: rest) =
              breakCountL staves rest + 1 := by
            unfold breakCountL
            rw [List.filter_cons]
            simp [hdet]
          have hmem1 : (page + 1) ∈ fsh.map Prod.fst := hnpmem rfl
          refine ⟨?_, ?_, ?_, hpresAll, hlenAll⟩
          · rw [hstep, ← hbcongr]
            omega
          · intro f hf
            rcases List.mem_append.mp hf with h1 | h1
            · rcases hfsh f h1 with h2 | h2 <;> omega
            · obtain ⟨hb1, hb2⟩ := hbnd f h1
              omega
          · intro p hp1 hp2
            rw [List.map_append]
            by_cases hple : p ≤ page + 1
            · have hp' : p = page + 1 := by omega
              rw [hp']
              exact List.mem_append_left _ hmem1
            · exact List.mem_append_right _ (hcov p (by omega) hp2)

/-- The number of measure rows of the document on which the sequencer
detects a page break (the quantity its page counter actually counts). -/
def breakRowCount (staves : List (List MElem)) : ℕ :=
  breakCountL staves (List.range (rowsCount staves))

/-- C8 (amended): when the frame sequencer runs to completion with the
initial empty frame enabled, frame page numbers are 1-based and the page
advances once per measure row on which a page break is detected — not
once per page-break marker. With K such rows, the frames' page numbers
span exactly 1..K+1 and the final frame carries page K+1. -/
theorem c8_page_numbers (staves : List (List MElem))
    (jobs : ℕ → Option Note) (ts : ℕ → ℚ) (mt : Note)
    (frames : List (ℕ × List (List MElem)))
    (h : get_trees staves jobs ts mt true = some frames) :
    frames.getLast?.map Prod.fst = some (breakRowCount staves + 1) ∧
    (∀ f ∈ frames, 1 ≤ f.1 ∧ f.1 ≤ breakRowCount staves + 1) ∧
    (∀ p, 1 ≤ p → p ≤ breakRowCount staves + 1 →
      p ∈ frames.map Prod.fst) := by
  unfold get_trees at h
  cases hrl : rowsLoop jobs ts mt (List.range (rowsCount staves)) 1 staves with
  | none =>
    simp only [hrl] at h
    exact Option.noConfusion h
  | some t =>
    obtain ⟨fs, page, staves'⟩ := t
    simp only [hrl] at h
    cases hcb : closeBarlines staves' with
    | none =>
      simp only [hcb] at h
      exact Option.noConfusion h
    | some staves'' =>
      simp only [hcb, Option.some.injEq] at h
      have hfr : frames = (1, staves) :: (fs ++ [(page, staves'')]) := by
        rw [← h]
        rfl
      subst hfr
      obtain ⟨hpe, hbnd, hcov, -, -⟩ :=
        rowsLoop_spec jobs ts mt (List.range (rowsCount staves)) 1 staves
          fs page staves' (List.nodup_range (rowsCount staves)) hrl
      have hK : page = breakRowCount staves + 1 := by
        unfold breakRowCount
        omega
      refine ⟨?_, ?_, ?_⟩
      · rw [show ((1, staves) : ℕ × List (List MElem)) ::
            (fs ++ [(page, staves'')]) =
            ((1, staves) :: fs) ++ [(page, staves'')] from rfl,
          List.getLast?_concat]
        simp [hK]
      · intro f hf
        rcases List.mem_cons.mp hf with h1 | h1
        · rw [h1]
          constructor
          · exact le_refl 1
          · omega
        · rcases List.mem_append.mp h1 with h2 | h2
          · obtain ⟨hb1, hb2⟩ := hbnd f h2
            omega
          · rw [List.mem_singleton.mp h2]
            constructor
            · simp
              omega
            · simp
              omega
      · intro p hp1 hp2
        rw [List.map_cons, List.map_append]
        by_cases hp0 : p = 1
        · rw [hp0]
          exact List.mem_cons_self 1 _
        · refine List.mem_cons_of_mem 1 (List.mem_append_left _ ?_)
          exact hcov p (by omega) (by omega)

/-- A page-struck `subtype` child. -/
def c8Sub : MElem := .node "subtype" [] (some "page") [] false

/-- A `LayoutBreak` page-break marker. -/
def c8LB : MElem := .node "LayoutBreak" [] none [c8Sub] false

/-- A measure with one page-break marker. -/
def c8W : MElem := .node "Measure" [] none [c8LB] true

/-- A measure with two page-break markers. -/
def c8M0 : MElem := .node "Measure" [] none [c8LB, c8LB] true

def c8EndSub : MElem := .node "subtype" [] (some "end") [] false

/-- `c8W` after the sequencer's end-barline pass. -/
def c8WB : MElem :=
  .node "Measure" [] none [c8LB, .node "BarLine" [] none [c8EndSub] false] true

/-- Claim-side count of page-break markers in a document (modelled on
the claim's words, for comparison with the detector-driven page counter
of `get_trees`): the number of `LayoutBreak` children whose `subtype`
text is `page`, over all measures of all staves. -/
def pageMarkerCount (staves : List (List MElem)) : ℕ :=
  (staves.map (fun s =>
    (s.map (fun mm =>
      (mm.children.filter (fun c =>
        c.tag == "LayoutBreak" &&
          (match c.find "subtype" with
            | some st => st.text == some "page"
            | none => false))).length)).sum)).sum

/-- A document with two page-break markers in one measure row yields
frames on pages 1 and 2 only: the pages do not span 1..3 and the final
frame is not on page 3, refuting the per-marker page count. -/
theorem c8_counterexample :
    pageMarkerCount [[c8M0]] = 2 ∧
    (get_trees [[c8M0]] (fun _ => none) (fun _ => (0 : ℚ)) ⟨512⟩ true).map
      (fun fr => fr.map Prod.fst) = some [1, 2, 2] ∧
    ¬ ((2 + 1) ∈ ([1, 2, 2] : List ℕ)) :=
  ⟨rfl, rfl, by decide⟩

/-- Concrete run of the amended C8 theorem: one break row, frames on
pages 1, 2, 2, final page 2 = K + 1. -/
theorem c8_witness :
    get_trees [[c8W]] (fun _ => none) (fun _ => (0 : ℚ)) ⟨512⟩ true =
      some [(1, [[c8W]]), (2, [[c8W]]), (2, [[c8WB]])] ∧
    ([(1, [[c8W]]), (2, [[c8W]]), (2, [[c8WB]])].getLast?.map Prod.fst =
      some (breakRowCount [[c8W]] + 1) ∧
    (∀ f ∈ [(1, [[c8W]]), (2, [[c8W]]), (2, [[c8WB]])],
      1 ≤ f.1 ∧ f.1 ≤ breakRowCount [[c8W]] + 1) ∧
    (∀ p, 1 ≤ p → p ≤ breakRowCount [[c8W]] + 1 →
      p ∈ [(1, [[c8W]]), (2, [[c8W]]), (2, [[c8WB]])].map Prod.fst)) :=
  ⟨rfl, c8_page_numbers [[c8W]] (fun _ => none) (fun _ => (0 : ℚ)) ⟨512⟩
    [(1, [[c8W]]), (2, [[c8W]]), (2, [[c8WB]])] rfl⟩

end AMusing
